import Mathlib

/-!
Verification of the market-data codec runtime and its two protocol
instantiations (order-entry "BOE" family, market-data "ITCH" feed family).

The runtime pieces (`status`, the endian primitives of `runtime/endian.hpp`)
are embedded directly from the source.  The per-message encoder/decoder
pairs and the dispatchers are produced by an external generator and their
code is not part of the repository snapshot; they are modelled from the
specification (see the doc comments marked "Modelled from the spec").

Buffers are lists of natural numbers; every byte written by an encoder is
reduced mod 256, and decode theorems that re-encode what was read assume
the input buffer holds genuine bytes (entries < 256), which `uint8_t`
guarantees in the source.
-/

namespace market.runtime

/-- Status taxonomy from `src/runtime/status.hpp`: the closed set of outcome
codes returned by every codec operation. -/
inductive status where
  | ok
  | short_buffer
  | bad_value
  | unknown_type
deriving DecidableEq, Repr

/-- `status_to_string` from `src/runtime/status.hpp`: stable human-readable
label for each status code (the `default:` arm of the C++ switch is
unreachable for the four enumerators). -/
def status_to_string : status → String
  | .ok => "ok"
  | .short_buffer => "short_buffer"
  | .bad_value => "bad_value"
  | .unknown_type => "unknown_type"

end market.runtime

/-! ## Little/big-endian byte representations of unsigned integers -/

/-- The `w` least-significant bytes of `v`, least significant first: the
little-endian memory image of a `w`-byte unsigned integer. -/
def natBytesLE : Nat → Nat → List Nat
  | 0, _ => []
  | w + 1, v => v % 256 :: natBytesLE w (v / 256)

/-- Value of a little-endian byte list. -/
def natFromBytesLE : List Nat → Nat
  | [] => 0
  | b :: bs => b + 256 * natFromBytesLE bs

/-- Big-endian byte image: most significant byte first. -/
def natBytesBE (w v : Nat) : List Nat := (natBytesLE w v).reverse

/-- Value of a big-endian byte list. -/
def natFromBytesBE (bs : List Nat) : Nat := natFromBytesLE bs.reverse

theorem length_natBytesLE (w v : Nat) : (natBytesLE w v).length = w := by
  induction w generalizing v with
  | zero => rfl
  | succ w ih => simp [natBytesLE, ih]

theorem length_natBytesBE (w v : Nat) : (natBytesBE w v).length = w := by
  simp [natBytesBE, length_natBytesLE]

theorem natBytesLE_lt (w v : Nat) : ∀ b ∈ natBytesLE w v, b < 256 := by
  induction w generalizing v with
  | zero => intro b hb; simp [natBytesLE] at hb
  | succ w ih =>
    intro b hb
    simp only [natBytesLE, List.mem_cons] at hb
    rcases hb with h | h
    · exact h ▸ Nat.mod_lt _ (by norm_num)
    · exact ih _ b h

theorem natFromBytesLE_natBytesLE (w v : Nat) :
    natFromBytesLE (natBytesLE w v) = v % 256 ^ w := by
  induction w generalizing v with
  | zero => simp [natBytesLE, natFromBytesLE, Nat.mod_one]
  | succ w ih =>
    simp only [natBytesLE, natFromBytesLE, ih]
    rw [pow_succ', Nat.mod_mul]

theorem natFromBytesLE_eq_self (w v : Nat) (h : v < 256 ^ w) :
    natFromBytesLE (natBytesLE w v) = v := by
  rw [natFromBytesLE_natBytesLE, Nat.mod_eq_of_lt h]

theorem natBytesLE_natFromBytesLE (bs : List Nat) (h : ∀ b ∈ bs, b < 256) :
    natBytesLE bs.length (natFromBytesLE bs) = bs := by
  induction bs with
  | nil => rfl
  | cons b bs ih =>
    have hb : b < 256 := h b (List.mem_cons_self b bs)
    have hrest : ∀ x ∈ bs, x < 256 := fun x hx => h x (List.mem_cons_of_mem b hx)
    simp only [List.length_cons, natBytesLE, natFromBytesLE]
    congr 1
    · rw [Nat.add_mul_mod_self_left, Nat.mod_eq_of_lt hb]
    · rw [Nat.add_mul_div_left _ _ (by norm_num : 0 < 256),
        Nat.div_eq_of_lt hb, Nat.zero_add]
      exact ih hrest

theorem natFromBytesLE_lt (bs : List Nat) (h : ∀ b ∈ bs, b < 256) :
    natFromBytesLE bs < 256 ^ bs.length := by
  induction bs with
  | nil => simp [natFromBytesLE]
  | cons b bs ih =>
    have hb : b < 256 := h b (List.mem_cons_self b bs)
    have hrest := ih (fun x hx => h x (List.mem_cons_of_mem b hx))
    simp only [natFromBytesLE, List.length_cons, pow_succ]
    calc b + 256 * natFromBytesLE bs
        < 256 + 256 * natFromBytesLE bs := by omega
      _ = 256 * (natFromBytesLE bs + 1) := by ring
      _ ≤ 256 * 256 ^ bs.length := by
          exact Nat.mul_le_mul_left _ (by omega)
      _ = 256 ^ bs.length * 256 := by ring

theorem getD_natBytesLE (w v k : Nat) (hk : k < w) :
    (natBytesLE w v).getD k 0 = v / 256 ^ k % 256 := by
  induction w generalizing v k with
  | zero => omega
  | succ w ih =>
    cases k with
    | zero => simp [natBytesLE]
    | succ k =>
      simp only [natBytesLE, List.getD_cons_succ]
      rw [ih (v / 256) k (by omega), Nat.div_div_eq_div_mul, ← pow_succ']

/-! ## Endian primitives, embedded from `src/runtime/endian.hpp` -/

/-- `detail::byteswap` from `src/runtime/endian.hpp`: `__builtin_bswap16/32/64`
reverses the `w` bytes of the value (the three C++ overloads are the
instances `w = 2, 4, 8`). -/
def byteswap (w v : Nat) : Nat := natFromBytesLE (natBytesLE w v).reverse

/-- Host byte order, the value of `std::endian::native` that
`src/runtime/endian.hpp` branches on with `if constexpr`. -/
inductive Endian where
  | little
  | big
deriving DecidableEq

/-- Memory image of a `w`-byte unsigned value on a host of byte order `e`
(what `std::memcpy` out of the value produces). -/
def nativeBytes (e : Endian) (w v : Nat) : List Nat :=
  match e with
  | .little => natBytesLE w v
  | .big => (natBytesLE w v).reverse

/-- Value whose memory image on a host of byte order `e` is `bs`
(what `std::memcpy` into the value produces). -/
def nativeValue (e : Endian) (bs : List Nat) : Nat :=
  match e with
  | .little => natFromBytesLE bs
  | .big => natFromBytesLE bs.reverse

/-- `store_le` from `src/runtime/endian.hpp`: byteswap the value when the
host is big-endian, then `memcpy` its `w` bytes to the buffer. -/
def store_le (e : Endian) (w v : Nat) : List Nat :=
  nativeBytes e w (match e with | .big => byteswap w v | .little => v)

/-- `load_le` from `src/runtime/endian.hpp`: `memcpy` `w` bytes into a value,
then byteswap when the host is big-endian. -/
def load_le (e : Endian) (w : Nat) (bs : List Nat) : Nat :=
  match e with
  | .big => byteswap w (nativeValue e bs)
  | .little => nativeValue e bs

/-- `store_be` from `src/runtime/endian.hpp`: byteswap the value when the
host is little-endian, then `memcpy` its `w` bytes to the buffer. -/
def store_be (e : Endian) (w v : Nat) : List Nat :=
  nativeBytes e w (match e with | .little => byteswap w v | .big => v)

/-- `load_be` from `src/runtime/endian.hpp`: `memcpy` `w` bytes into a value,
then byteswap when the host is little-endian. -/
def load_be (e : Endian) (w : Nat) (bs : List Nat) : Nat :=
  match e with
  | .little => byteswap w (nativeValue e bs)
  | .big => nativeValue e bs

theorem natBytesLE_byteswap (w v : Nat) :
    natBytesLE w (byteswap w v) = (natBytesLE w v).reverse := by
  have hlen : (natBytesLE w v).reverse.length = w := by
    simp [length_natBytesLE]
  have hlt : ∀ b ∈ (natBytesLE w v).reverse, b < 256 := by
    intro b hb
    exact natBytesLE_lt w v b (List.mem_reverse.mp hb)
  have := natBytesLE_natFromBytesLE (natBytesLE w v).reverse hlt
  rwa [hlen] at this

theorem store_le_eq (e : Endian) (w v : Nat) : store_le e w v = natBytesLE w v := by
  cases e with
  | little => rfl
  | big =>
    simp only [store_le, nativeBytes, natBytesLE_byteswap, List.reverse_reverse]

theorem store_be_eq (e : Endian) (w v : Nat) :
    store_be e w v = (natBytesLE w v).reverse := by
  cases e with
  | little => simp only [store_be, nativeBytes, natBytesLE_byteswap]
  | big => rfl

theorem load_le_eq (e : Endian) (w : Nat) (bs : List Nat)
    (hlen : bs.length = w) (hlt : ∀ b ∈ bs, b < 256) :
    load_le e w bs = natFromBytesLE bs := by
  cases e with
  | little => rfl
  | big =>
    simp only [load_le, nativeValue, byteswap]
    have h1 : ∀ b ∈ bs.reverse, b < 256 := by
      intro b hb; exact hlt b (List.mem_reverse.mp hb)
    have h2 := natBytesLE_natFromBytesLE bs.reverse h1
    rw [List.length_reverse, hlen] at h2
    rw [h2, List.reverse_reverse]

theorem load_be_eq (e : Endian) (w : Nat) (bs : List Nat)
    (hlen : bs.length = w) (hlt : ∀ b ∈ bs, b < 256) :
    load_be e w bs = natFromBytesLE bs.reverse := by
  cases e with
  | little =>
    simp only [load_be, nativeValue, byteswap]
    have h2 := natBytesLE_natFromBytesLE bs hlt
    rw [hlen] at h2
    rw [h2]
  | big => rfl

/-! ## Byte-cursor decode primitives

Modelled from the spec (section 4.1 "Byte cursor" and 4.4 "Message codec
(decode)"): a decoder is a function from the unread part of the buffer to
either a failure status or a decoded value together with the remaining
unread bytes.  The number of bytes consumed is the length difference of
the two lists.  `readN` is the cursor's bounds-checked `read(n)`:
it fails with `short_buffer` when fewer than `n` bytes remain and does not
advance on failure. -/

open market.runtime in
/-- A decoder over a byte cursor: input list in, value plus rest out. -/
def Dec (α : Type) : Type := List Nat → Except status (α × List Nat)

/-- Sequencing of decoders; failure statuses propagate unchanged. -/
def dbind {α β : Type} (d : Dec α) (f : α → Dec β) : Dec β := fun s =>
  match d s with
  | .ok (a, rest) => f a rest
  | .error e => .error e

/-- Decoder that consumes nothing and yields `a`. -/
def dpure {α : Type} (a : α) : Dec α := fun s => .ok (a, s)

/-- Domain-constraint check: consumes nothing, fails with `bad_value` when
the decoded value violates the constraint (spec section 4.4: a verified
type tag mismatch fails `bad_value`). -/
def dguard (c : Prop) [Decidable c] : Dec Unit := fun s =>
  if c then .ok ((), s) else .error .bad_value

/-- Bounds-checked read of `k` bytes (spec section 4.1: `read(n)` fails with
`short_buffer` when `position + n > length`). -/
def readN (k : Nat) : Dec (List Nat) := fun s =>
  if k ≤ s.length then .ok (s.take k, s.drop k) else .error .short_buffer

/-- Bounds-checked read of a single byte. -/
def readByte : Dec Nat := fun s =>
  match s with
  | [] => .error .short_buffer
  | b :: rest => .ok (b, rest)

/-- `d` consumes exactly `u` and returns `a`, for any trailing bytes. -/
def Consumes {α : Type} (d : Dec α) (u : List Nat) (a : α) : Prop :=
  ∀ v, d (u ++ v) = .ok (a, v)

/-- `d` fails with `short_buffer` on every strict truncation of `u`. -/
def ShortBelow {α : Type} (d : Dec α) (u : List Nat) : Prop :=
  ∀ n, n < u.length → d (u.take n) = .error .short_buffer

/-- Combined decode contract on the exact encoding `u`. -/
def DSpec {α : Type} (d : Dec α) (u : List Nat) (a : α) : Prop :=
  Consumes d u a ∧ ShortBelow d u

theorem dspec_dpure {α : Type} (a : α) : DSpec (dpure a) [] a := by
  constructor
  · intro v; rfl
  · intro n hn; simp at hn

theorem dspec_dguard {c : Prop} [Decidable c] (h : c) : DSpec (dguard c) [] () := by
  constructor
  · intro v; simp [dguard, h]
  · intro n hn; simp at hn

theorem dspec_readN {k : Nat} {u : List Nat} (h : u.length = k) :
    DSpec (readN k) u u := by
  subst h
  constructor
  · intro v
    simp [readN, List.take_left, List.drop_left]
  · intro n hn
    have hlen : (u.take n).length = n := by
      simp [List.length_take]; omega
    simp only [readN, hlen]
    rw [if_neg (by omega)]

theorem dspec_readByte (b : Nat) : DSpec readByte [b] b := by
  constructor
  · intro v; rfl
  · intro n hn
    simp only [List.length_cons, List.length_nil] at hn
    have : n = 0 := by omega
    subst this
    rfl

theorem dspec_dbind {α β : Type} {d : Dec α} {f : α → Dec β} {u w : List Nat}
    {a : α} {b : β} (h1 : DSpec d u a) (h2 : DSpec (f a) w b) :
    DSpec (dbind d f) (u ++ w) b := by
  obtain ⟨hc1, hs1⟩ := h1
  obtain ⟨hc2, hs2⟩ := h2
  constructor
  · intro v
    rw [List.append_assoc]
    simp only [dbind, hc1 (w ++ v)]
    exact hc2 v
  · intro n hn
    rw [List.length_append] at hn
    by_cases hcase : n < u.length
    · have ht : (u ++ w).take n = u.take n := by
        rw [List.take_append_eq_append_take]
        have : n - u.length = 0 := by omega
        simp [this]
      rw [ht]
      simp only [dbind, hs1 n hcase]
    · have hm : n - u.length < w.length := by omega
      have ht : (u ++ w).take n = u ++ w.take (n - u.length) := by
        rw [List.take_append_eq_append_take]
        congr 1
        exact List.take_of_length_le (by omega)
      rw [ht]
      simp only [dbind, hc1 (w.take (n - u.length))]
      exact hs2 _ hm

theorem dspec_ok {α : Type} {d : Dec α} {u : List Nat} {a : α}
    (h : DSpec d u a) : d u = .ok (a, []) := by
  have := h.1 []
  rwa [List.append_nil] at this

theorem exact_readN {k : Nat} {s bs rest : List Nat}
    (h : readN k s = .ok (bs, rest)) : s = bs ++ rest ∧ bs.length = k := by
  unfold readN at h
  split at h
  · injection h with h'
    injection h' with h1 h2
    subst h1; subst h2
    exact ⟨(List.take_append_drop k s).symm, by simp [List.length_take]; omega⟩
  · cases h

theorem exact_readByte {s rest : List Nat} {b : Nat}
    (h : readByte s = .ok (b, rest)) : s = b :: rest := by
  unfold readByte at h
  cases s with
  | nil => cases h
  | cons x t =>
    injection h with h'
    injection h' with h1 h2
    subst h1; subst h2
    rfl

theorem exact_dguard {c : Prop} [Decidable c] {s rest : List Nat} {x : Unit}
    (h : dguard c s = .ok (x, rest)) : c ∧ rest = s := by
  unfold dguard at h
  split at h
  · injection h with h'
    injection h' with h1 h2
    exact ⟨by assumption, h2.symm⟩
  · cases h

theorem exact_dpure {α : Type} {a b : α} {s rest : List Nat}
    (h : dpure a s = .ok (b, rest)) : b = a ∧ rest = s := by
  unfold dpure at h
  injection h with h'
  injection h' with h1 h2
  exact ⟨h1.symm, h2.symm⟩

theorem exact_dbind {α β : Type} {d : Dec α} {f : α → Dec β} {s rest : List Nat}
    {b : β} (h : dbind d f s = .ok (b, rest)) :
    ∃ a mid, d s = .ok (a, mid) ∧ f a mid = .ok (b, rest) := by
  unfold dbind at h
  split at h
  · rename_i a mid heq
    exact ⟨a, mid, heq, h⟩
  · cases h

/-! ## Order-entry protocol family (`cboe::boe::v3`)

Modelled from the spec: the generated headers
`generated/cboe_boe_v3/messages.hpp`, `encoder.hpp`, `decoder.hpp` and
`handler.hpp` are produced by the schema-to-code generator and are not in
the repository snapshot; only their callers (tests, tools, examples) are.
The wire format follows spec section 6 (order-entry family): fixed
preamble, one-byte message-type discriminator, fixed fields, presence
bitmask followed by present optional fields, one-byte group count followed
by the group elements, all multi-byte integers little-endian.  Field
shapes pinned by `src/tests/test_roundtrip.cpp`: `LoginRequest` has a
4-byte `Username` and a 20-byte `Password`; `NewOrderCross` has a 20-byte
`CrossId`, a presence bitmask whose bit 9 gates the per-element 16-byte
`Account`, and repeating group elements with one-byte `Side`, 32-bit
`AllocQty` and 20-byte `ClOrdId`.  The spec leaves the preamble bytes and
the numeric tag values unspecified; they are modelled as fixed constants
(the fuzz harness notes five bytes of preamble-plus-type). -/

namespace BOE

/-- Modelled from the spec: fixed four-byte preamble of the order-entry
framing (content unspecified in the spec; a fixed constant). -/
def boePreamble : List Nat := [0xBA, 0xBA, 0, 0]

/-- Modelled from the spec: `MessageType::LoginRequest` discriminator. -/
def msgTypeLoginRequest : Nat := 0x37

/-- Modelled from the spec: `MessageType::NewOrderCross` discriminator. -/
def msgTypeNewOrderCross : Nat := 0x41

/-- `cboe::boe::v3::LoginRequest` record. -/
structure LoginRequest where
  MessageType : Nat
  Username : List Nat
  Password : List Nat
deriving DecidableEq

/-- `cboe::boe::v3::NewOrderCrossGroups` repeating-group element record. -/
structure NewOrderCrossGroups where
  Side : Nat
  AllocQty : Nat
  ClOrdId : List Nat
  Account : List Nat
deriving DecidableEq

/-- `cboe::boe::v3::NewOrderCross` record: presence bitmask, fixed
`CrossId`, explicit group count and the group-element sequence. -/
structure NewOrderCross where
  MessageType : Nat
  CrossId : List Nat
  PresenceBits : Nat
  GroupCount : Nat
  groups : List NewOrderCrossGroups
deriving DecidableEq

/-- Modelled from the spec (section 4.3): encode `LoginRequest` — preamble,
type tag, then the fixed byte-array fields copied verbatim. -/
def encodeLoginRequest (r : LoginRequest) : List Nat :=
  boePreamble ++ [r.MessageType % 256] ++ r.Username ++ r.Password

/-- Modelled from the spec (section 4.4): decode `LoginRequest` — read and
verify preamble and type tag (`bad_value` on mismatch), then read the
fixed fields; `short_buffer` as soon as any read would exceed the
buffer. -/
def decodeLoginRequest : Dec LoginRequest :=
  dbind (readN 4) (fun pre =>
  dbind (dguard (pre = boePreamble)) (fun _ =>
  dbind readByte (fun t =>
  dbind (dguard (t = msgTypeLoginRequest)) (fun _ =>
  dbind (readN 4) (fun u =>
  dbind (readN 20) (fun p =>
  dpure { MessageType := t, Username := u, Password := p }))))))

/-- Record well-formedness matching the C++ field types and the tag the
encoder is invoked with: correct discriminator, 4-byte username, 20-byte
password. -/
abbrev ValidLoginRequest (r : LoginRequest) : Prop :=
  r.MessageType = msgTypeLoginRequest ∧
  r.Username.length = 4 ∧ r.Password.length = 20

/-- Modelled from the spec (section 4.3 step 4): encode one group element;
the 16-byte `Account` bytes are emitted only when bit 9 of the message's
presence bitmask is set, absent fields contribute zero bytes. -/
def encodeGroup (acct : Bool) (g : NewOrderCrossGroups) : List Nat :=
  [g.Side % 256] ++ natBytesLE 4 g.AllocQty ++ g.ClOrdId ++
    (if acct then g.Account else [])

/-- Modelled from the spec (section 4.4): decode one group element; when
bit 9 is clear the absent `Account` is left at its default (all zero). -/
def decodeGroup (acct : Bool) : Dec NewOrderCrossGroups :=
  dbind readByte (fun side =>
  dbind (readN 4) (fun q =>
  dbind (readN 20) (fun cl =>
  if acct then
    dbind (readN 16) (fun a =>
    dpure { Side := side, AllocQty := natFromBytesLE q, ClOrdId := cl,
            Account := a })
  else
    dpure { Side := side, AllocQty := natFromBytesLE q, ClOrdId := cl,
            Account := List.replicate 16 0 })))

/-- Modelled from the spec: encode the group elements in insertion order. -/
def encodeGroups (acct : Bool) : List NewOrderCrossGroups → List Nat
  | [] => []
  | g :: gs => encodeGroup acct g ++ encodeGroups acct gs

/-- Modelled from the spec: decode `count` group elements recursively,
appending each to the sequence. -/
def decodeGroups (acct : Bool) : Nat → Dec (List NewOrderCrossGroups)
  | 0 => dpure []
  | k + 1 =>
    dbind (decodeGroup acct) (fun g =>
    dbind (decodeGroups acct k) (fun gs =>
    dpure (g :: gs)))

/-- Modelled from the spec (sections 4.3, 6): encode `NewOrderCross` —
preamble, tag, fixed `CrossId`, the 16-bit presence bitmask, the one-byte
group count, then the group elements. -/
def encodeNewOrderCross (r : NewOrderCross) : List Nat :=
  boePreamble ++ [r.MessageType % 256] ++ r.CrossId ++
    natBytesLE 2 r.PresenceBits ++ [r.GroupCount % 256] ++
    encodeGroups (r.PresenceBits.testBit 9) r.groups

/-- Modelled from the spec (section 4.4): decode `NewOrderCross`. -/
def decodeNewOrderCross : Dec NewOrderCross :=
  dbind (readN 4) (fun pre =>
  dbind (dguard (pre = boePreamble)) (fun _ =>
  dbind readByte (fun t =>
  dbind (dguard (t = msgTypeNewOrderCross)) (fun _ =>
  dbind (readN 20) (fun cid =>
  dbind (readN 2) (fun pb =>
  dbind readByte (fun cnt =>
  dbind (decodeGroups ((natFromBytesLE pb).testBit 9) cnt) (fun gs =>
  dpure { MessageType := t, CrossId := cid,
          PresenceBits := natFromBytesLE pb, GroupCount := cnt,
          groups := gs }))))))))

/-- Group-element well-formedness matching the C++ field types; when the
Account bit is clear the element's `Account` storage is at its
default/zero value (spec section 3, presence bitmask). -/
abbrev ValidGroup (acct : Bool) (g : NewOrderCrossGroups) : Prop :=
  g.Side < 256 ∧ g.AllocQty < 256 ^ 4 ∧ g.ClOrdId.length = 20 ∧
  (if acct then g.Account.length = 16 else g.Account = List.replicate 16 0)

/-- `NewOrderCross` well-formedness: correct tag, 20-byte `CrossId`,
bitmask within its 16-bit wire width, `GroupCount` equal to the number of
stored elements (as the tests maintain), and well-formed elements. -/
abbrev ValidNewOrderCross (r : NewOrderCross) : Prop :=
  r.MessageType = msgTypeNewOrderCross ∧ r.CrossId.length = 20 ∧
  r.PresenceBits < 256 ^ 2 ∧ r.GroupCount = r.groups.length ∧
  r.groups.length < 256 ∧
  ∀ g ∈ r.groups, ValidGroup (r.PresenceBits.testBit 9) g

end BOE

/-! ## Market-data feed protocol family (`nasdaq::itch::v5`)

Modelled from the spec: the generated headers
`generated/nasdaq_itch_5/messages.hpp`, `encoder.hpp`, `decoder.hpp` and
`handler.hpp` are not in the repository snapshot.  Spec section 6
(market-data feed family): flat messages, one-byte type tag, fixed-width
big-endian fields, no optional fields, no groups.  Layouts pinned by
`src/tests/test_roundtrip.cpp`: `AddOrder` is tag `'A'` (65) with 32-bit
`Timestamp`, 64-bit `OrderId`, one-byte `Side`, 32-bit `Shares`, 8-byte
`Symbol`, 32-bit `Price` (1+4+8+1+4+8+4 = 30 bytes); `DeleteOrder` is tag
`'D'` (68) with 32-bit `Timestamp` and 64-bit `OrderId` (1+4+8 = 13
bytes).  Per spec section 4.4 the single-byte `Side` enumeration is
decoded raw, without validity checking. -/

namespace ITCH

/-- `nasdaq::itch::v5::AddOrder` record. -/
structure AddOrder where
  «Type» : Nat
  Timestamp : Nat
  OrderId : Nat
  Side : Nat
  Shares : Nat
  Symbol : List Nat
  Price : Nat
deriving DecidableEq

/-- `nasdaq::itch::v5::DeleteOrder` record. -/
structure DeleteOrder where
  «Type» : Nat
  Timestamp : Nat
  OrderId : Nat
deriving DecidableEq

/-- Tag byte of `AddOrder`, the character `A`. -/
def tagAddOrder : Nat := 65

/-- Tag byte of `DeleteOrder`, the character `D`. -/
def tagDeleteOrder : Nat := 68

/-- Modelled from the spec (sections 4.3, 6): encode `AddOrder` — type tag
then fixed-width big-endian fields, `Symbol` copied verbatim. -/
def encodeAddOrder (r : AddOrder) : List Nat :=
  [r.«Type» % 256] ++ natBytesBE 4 r.Timestamp ++ natBytesBE 8 r.OrderId ++
    [r.Side % 256] ++ natBytesBE 4 r.Shares ++ r.Symbol ++
    natBytesBE 4 r.Price

/-- Modelled from the spec (section 4.4): decode `AddOrder` — verify the
tag (`bad_value` on mismatch), then read the fixed fields; the `Side`
byte is stored raw without enumeration checking. -/
def decodeAddOrder : Dec AddOrder :=
  dbind readByte (fun t =>
  dbind (dguard (t = tagAddOrder)) (fun _ =>
  dbind (readN 4) (fun ts =>
  dbind (readN 8) (fun oid =>
  dbind readByte (fun side =>
  dbind (readN 4) (fun sh =>
  dbind (readN 8) (fun sym =>
  dbind (readN 4) (fun pr =>
  dpure { «Type» := t, Timestamp := natFromBytesBE ts,
          OrderId := natFromBytesBE oid, Side := side,
          Shares := natFromBytesBE sh, Symbol := sym,
          Price := natFromBytesBE pr }))))))))

/-- Modelled from the spec: encode `DeleteOrder`. -/
def encodeDeleteOrder (r : DeleteOrder) : List Nat :=
  [r.«Type» % 256] ++ natBytesBE 4 r.Timestamp ++ natBytesBE 8 r.OrderId

/-- Modelled from the spec: decode `DeleteOrder`. -/
def decodeDeleteOrder : Dec DeleteOrder :=
  dbind readByte (fun t =>
  dbind (dguard (t = tagDeleteOrder)) (fun _ =>
  dbind (readN 4) (fun ts =>
  dbind (readN 8) (fun oid =>
  dpure { «Type» := t, Timestamp := natFromBytesBE ts,
          OrderId := natFromBytesBE oid }))))

/-- `AddOrder` well-formedness matching the C++ field types and the tag
the encoder is invoked with. -/
abbrev ValidAddOrder (r : AddOrder) : Prop :=
  r.«Type» = tagAddOrder ∧ r.Timestamp < 256 ^ 4 ∧ r.OrderId < 256 ^ 8 ∧
  r.Side < 256 ∧ r.Shares < 256 ^ 4 ∧ r.Symbol.length = 8 ∧
  r.Price < 256 ^ 4

/-- `DeleteOrder` well-formedness. -/
abbrev ValidDeleteOrder (r : DeleteOrder) : Prop :=
  r.«Type» = tagDeleteOrder ∧ r.Timestamp < 256 ^ 4 ∧ r.OrderId < 256 ^ 8

end ITCH

theorem natFromBytesBE_eq_self (w v : Nat) (h : v < 256 ^ w) :
    natFromBytesBE (natBytesBE w v) = v := by
  simp only [natFromBytesBE, natBytesBE, List.reverse_reverse]
  exact natFromBytesLE_eq_self w v h

namespace BOE

theorem loginRequest_dspec (r : LoginRequest) (h : ValidLoginRequest r) :
    DSpec decodeLoginRequest (encodeLoginRequest r) r := by
  obtain ⟨mt, un, pw⟩ := r
  obtain ⟨h1, h2, h3⟩ := h
  simp only at h1 h2 h3
  subst h1
  have hd : DSpec decodeLoginRequest
      (boePreamble ++ ([] ++ ([msgTypeLoginRequest] ++ ([] ++ (un ++ (pw ++ []))))))
      ⟨msgTypeLoginRequest, un, pw⟩ := by
    unfold decodeLoginRequest
    refine dspec_dbind (dspec_readN rfl) ?_
    refine dspec_dbind (dspec_dguard rfl) ?_
    refine dspec_dbind (dspec_readByte _) ?_
    refine dspec_dbind (dspec_dguard rfl) ?_
    refine dspec_dbind (dspec_readN h2) ?_
    refine dspec_dbind (dspec_readN h3) ?_
    exact dspec_dpure _
  have henc : encodeLoginRequest ⟨msgTypeLoginRequest, un, pw⟩ =
      boePreamble ++ ([] ++ ([msgTypeLoginRequest] ++ ([] ++ (un ++ (pw ++ []))))) := by
    simp [encodeLoginRequest, msgTypeLoginRequest]
  rw [henc]
  exact hd

end BOE

namespace BOE

theorem group_dspec (acct : Bool) (g : NewOrderCrossGroups)
    (h : ValidGroup acct g) : DSpec (decodeGroup acct) (encodeGroup acct g) g := by
  obtain ⟨side, q, cl, a⟩ := g
  obtain ⟨h1, h2, h3, h4⟩ := h
  simp only at h1 h2 h3 h4
  have hside : side % 256 = side := Nat.mod_eq_of_lt h1
  cases acct with
  | true =>
    simp only [if_true] at h4
    have hd : DSpec (decodeGroup true)
        ([side] ++ (natBytesLE 4 q ++ (cl ++ (a ++ []))))
        ⟨side, q, cl, a⟩ := by
      unfold decodeGroup
      refine dspec_dbind (dspec_readByte _) ?_
      refine dspec_dbind (dspec_readN (length_natBytesLE 4 q)) ?_
      refine dspec_dbind (dspec_readN h3) ?_
      simp only [if_true]
      rw [natFromBytesLE_eq_self 4 q h2]
      refine dspec_dbind (dspec_readN h4) ?_
      exact dspec_dpure _
    have henc : encodeGroup true ⟨side, q, cl, a⟩ =
        [side] ++ (natBytesLE 4 q ++ (cl ++ (a ++ []))) := by
      simp [encodeGroup, hside]
    rw [henc]
    exact hd
  | false =>
    rw [if_neg (by decide)] at h4
    subst h4
    have hd : DSpec (decodeGroup false)
        ([side] ++ (natBytesLE 4 q ++ (cl ++ [])))
        ⟨side, q, cl, List.replicate 16 0⟩ := by
      unfold decodeGroup
      refine dspec_dbind (dspec_readByte _) ?_
      refine dspec_dbind (dspec_readN (length_natBytesLE 4 q)) ?_
      refine dspec_dbind (dspec_readN h3) ?_
      rw [if_neg (by decide)]
      rw [natFromBytesLE_eq_self 4 q h2]
      exact dspec_dpure _
    have henc : encodeGroup false ⟨side, q, cl, List.replicate 16 0⟩ =
        [side] ++ (natBytesLE 4 q ++ (cl ++ [])) := by
      simp [encodeGroup, hside]
    rw [henc]
    exact hd

theorem groups_dspec (acct : Bool) (gs : List NewOrderCrossGroups)
    (h : ∀ g ∈ gs, ValidGroup acct g) :
    DSpec (decodeGroups acct gs.length) (encodeGroups acct gs) gs := by
  induction gs with
  | nil => exact dspec_dpure []
  | cons g gs ih =>
    have hg := h g (List.mem_cons_self g gs)
    have hrest := ih (fun x hx => h x (List.mem_cons_of_mem g hx))
    have hd : DSpec (decodeGroups acct (gs.length + 1))
        (encodeGroup acct g ++ (encodeGroups acct gs ++ []))
        (g :: gs) := by
      unfold decodeGroups
      refine dspec_dbind (group_dspec acct g hg) ?_
      refine dspec_dbind hrest ?_
      exact dspec_dpure _
    simp only [List.append_nil] at hd
    simpa [encodeGroups, List.length_cons] using hd

theorem newOrderCross_dspec (r : NewOrderCross) (h : ValidNewOrderCross r) :
    DSpec decodeNewOrderCross (encodeNewOrderCross r) r := by
  obtain ⟨mt, cid, pb, cnt, gs⟩ := r
  obtain ⟨h1, h2, h3, h4, h5, h6⟩ := h
  simp only at h1 h2 h3 h4 h5 h6
  subst h1
  subst h4
  have hcnt : gs.length % 256 = gs.length := Nat.mod_eq_of_lt h5
  have hd : DSpec decodeNewOrderCross
      (boePreamble ++ ([] ++ ([msgTypeNewOrderCross] ++ ([] ++ (cid ++
        (natBytesLE 2 pb ++ ([gs.length] ++
          (encodeGroups (pb.testBit 9) gs ++ []))))))))
      ⟨msgTypeNewOrderCross, cid, pb, gs.length, gs⟩ := by
    unfold decodeNewOrderCross
    refine dspec_dbind (dspec_readN rfl) ?_
    refine dspec_dbind (dspec_dguard rfl) ?_
    refine dspec_dbind (dspec_readByte _) ?_
    refine dspec_dbind (dspec_dguard rfl) ?_
    refine dspec_dbind (dspec_readN h2) ?_
    refine dspec_dbind (dspec_readN (length_natBytesLE 2 pb)) ?_
    refine dspec_dbind (dspec_readByte _) ?_
    rw [natFromBytesLE_eq_self 2 pb h3]
    refine dspec_dbind (groups_dspec (pb.testBit 9) gs h6) ?_
    exact dspec_dpure _
  have henc : encodeNewOrderCross ⟨msgTypeNewOrderCross, cid, pb, gs.length, gs⟩ =
      boePreamble ++ ([] ++ ([msgTypeNewOrderCross] ++ ([] ++ (cid ++
        (natBytesLE 2 pb ++ ([gs.length] ++
          (encodeGroups (pb.testBit 9) gs ++ []))))))) := by
    simp [encodeNewOrderCross, msgTypeNewOrderCross, hcnt]
  rw [henc]
  exact hd

end BOE

namespace ITCH

theorem addOrder_dspec (r : AddOrder) (h : ValidAddOrder r) :
    DSpec decodeAddOrder (encodeAddOrder r) r := by
  obtain ⟨t, ts, oid, side, sh, sym, pr⟩ := r
  obtain ⟨h1, h2, h3, h4, h5, h6, h7⟩ := h
  simp only at h1 h2 h3 h4 h5 h6 h7
  subst h1
  have hside : side % 256 = side := Nat.mod_eq_of_lt h4
  have hd : DSpec decodeAddOrder
      ([tagAddOrder] ++ ([] ++ (natBytesBE 4 ts ++ (natBytesBE 8 oid ++
        ([side] ++ (natBytesBE 4 sh ++ (sym ++ (natBytesBE 4 pr ++ []))))))))
      ⟨tagAddOrder, ts, oid, side, sh, sym, pr⟩ := by
    unfold decodeAddOrder
    refine dspec_dbind (dspec_readByte _) ?_
    refine dspec_dbind (dspec_dguard rfl) ?_
    refine dspec_dbind (dspec_readN (length_natBytesBE 4 ts)) ?_
    refine dspec_dbind (dspec_readN (length_natBytesBE 8 oid)) ?_
    refine dspec_dbind (dspec_readByte _) ?_
    refine dspec_dbind (dspec_readN (length_natBytesBE 4 sh)) ?_
    refine dspec_dbind (dspec_readN h6) ?_
    refine dspec_dbind (dspec_readN (length_natBytesBE 4 pr)) ?_
    rw [natFromBytesBE_eq_self 4 ts h2, natFromBytesBE_eq_self 8 oid h3,
      natFromBytesBE_eq_self 4 sh h5, natFromBytesBE_eq_self 4 pr h7]
    exact dspec_dpure _
  have henc : encodeAddOrder ⟨tagAddOrder, ts, oid, side, sh, sym, pr⟩ =
      [tagAddOrder] ++ ([] ++ (natBytesBE 4 ts ++ (natBytesBE 8 oid ++
        ([side] ++ (natBytesBE 4 sh ++ (sym ++ (natBytesBE 4 pr ++ []))))))) := by
    simp [encodeAddOrder, tagAddOrder, hside]
  rw [henc]
  exact hd

theorem deleteOrder_dspec (r : DeleteOrder) (h : ValidDeleteOrder r) :
    DSpec decodeDeleteOrder (encodeDeleteOrder r) r := by
  obtain ⟨t, ts, oid⟩ := r
  obtain ⟨h1, h2, h3⟩ := h
  simp only at h1 h2 h3
  subst h1
  have hd : DSpec decodeDeleteOrder
      ([tagDeleteOrder] ++ ([] ++ (natBytesBE 4 ts ++ (natBytesBE 8 oid ++ []))))
      ⟨tagDeleteOrder, ts, oid⟩ := by
    unfold decodeDeleteOrder
    refine dspec_dbind (dspec_readByte _) ?_
    refine dspec_dbind (dspec_dguard rfl) ?_
    refine dspec_dbind (dspec_readN (length_natBytesBE 4 ts)) ?_
    refine dspec_dbind (dspec_readN (length_natBytesBE 8 oid)) ?_
    rw [natFromBytesBE_eq_self 4 ts h2, natFromBytesBE_eq_self 8 oid h3]
    exact dspec_dpure _
  have henc : encodeDeleteOrder ⟨tagDeleteOrder, ts, oid⟩ =
      [tagDeleteOrder] ++ ([] ++ (natBytesBE 4 ts ++ (natBytesBE 8 oid ++ []))) := by
    simp [encodeDeleteOrder, tagDeleteOrder]
  rw [henc]
  exact hd

end ITCH

/-! ## Decoders never fail with an `ok` error code -/

/-- A decoder's failure status is never `ok`. -/
def NeverErrOk {α : Type} (d : Dec α) : Prop :=
  ∀ s e, d s = .error e → e ≠ market.runtime.status.ok

theorem neverErrOk_dpure {α : Type} (a : α) : NeverErrOk (dpure a) := by
  intro s e he
  cases he

theorem neverErrOk_dguard {c : Prop} [Decidable c] : NeverErrOk (dguard c) := by
  intro s e he
  unfold dguard at he
  split at he
  · cases he
  · injection he with h1
    subst h1
    decide

theorem neverErrOk_readN (k : Nat) : NeverErrOk (readN k) := by
  intro s e he
  unfold readN at he
  split at he
  · cases he
  · injection he with h1
    subst h1
    decide

theorem neverErrOk_readByte : NeverErrOk readByte := by
  intro s e he
  unfold readByte at he
  cases s with
  | nil =>
    injection he with h1
    subst h1
    decide
  | cons b t => cases he

theorem neverErrOk_dbind {α β : Type} {d : Dec α} {f : α → Dec β}
    (h1 : NeverErrOk d) (h2 : ∀ a, NeverErrOk (f a)) :
    NeverErrOk (dbind d f) := by
  intro s e he
  unfold dbind at he
  split at he
  · rename_i a rest heq
    exact h2 a rest e he
  · rename_i e' heq
    injection he with h1'
    subst h1'
    exact h1 s e' heq

theorem neverErrOk_decodeGroup (acct : Bool) : NeverErrOk (BOE.decodeGroup acct) := by
  unfold BOE.decodeGroup
  refine neverErrOk_dbind neverErrOk_readByte (fun side => ?_)
  refine neverErrOk_dbind (neverErrOk_readN 4) (fun q => ?_)
  refine neverErrOk_dbind (neverErrOk_readN 20) (fun cl => ?_)
  cases acct with
  | true =>
    rw [if_pos rfl]
    exact neverErrOk_dbind (neverErrOk_readN 16) (fun a => neverErrOk_dpure _)
  | false =>
    rw [if_neg (by decide)]
    exact neverErrOk_dpure _

theorem neverErrOk_decodeGroups (acct : Bool) (k : Nat) :
    NeverErrOk (BOE.decodeGroups acct k) := by
  induction k with
  | zero => exact neverErrOk_dpure _
  | succ k ih =>
    unfold BOE.decodeGroups
    refine neverErrOk_dbind (neverErrOk_decodeGroup acct) (fun g => ?_)
    exact neverErrOk_dbind ih (fun gs => neverErrOk_dpure _)

theorem neverErrOk_decodeLoginRequest : NeverErrOk BOE.decodeLoginRequest := by
  unfold BOE.decodeLoginRequest
  refine neverErrOk_dbind (neverErrOk_readN 4) (fun pre => ?_)
  refine neverErrOk_dbind neverErrOk_dguard (fun _ => ?_)
  refine neverErrOk_dbind neverErrOk_readByte (fun t => ?_)
  refine neverErrOk_dbind neverErrOk_dguard (fun _ => ?_)
  refine neverErrOk_dbind (neverErrOk_readN 4) (fun u => ?_)
  exact neverErrOk_dbind (neverErrOk_readN 20) (fun p => neverErrOk_dpure _)

theorem neverErrOk_decodeNewOrderCross : NeverErrOk BOE.decodeNewOrderCross := by
  unfold BOE.decodeNewOrderCross
  refine neverErrOk_dbind (neverErrOk_readN 4) (fun pre => ?_)
  refine neverErrOk_dbind neverErrOk_dguard (fun _ => ?_)
  refine neverErrOk_dbind neverErrOk_readByte (fun t => ?_)
  refine neverErrOk_dbind neverErrOk_dguard (fun _ => ?_)
  refine neverErrOk_dbind (neverErrOk_readN 20) (fun cid => ?_)
  refine neverErrOk_dbind (neverErrOk_readN 2) (fun pb => ?_)
  refine neverErrOk_dbind neverErrOk_readByte (fun cnt => ?_)
  exact neverErrOk_dbind (neverErrOk_decodeGroups _ cnt) (fun gs => neverErrOk_dpure _)

theorem neverErrOk_decodeAddOrder : NeverErrOk ITCH.decodeAddOrder := by
  unfold ITCH.decodeAddOrder
  refine neverErrOk_dbind neverErrOk_readByte (fun t => ?_)
  refine neverErrOk_dbind neverErrOk_dguard (fun _ => ?_)
  refine neverErrOk_dbind (neverErrOk_readN 4) (fun ts => ?_)
  refine neverErrOk_dbind (neverErrOk_readN 8) (fun oid => ?_)
  refine neverErrOk_dbind neverErrOk_readByte (fun side => ?_)
  refine neverErrOk_dbind (neverErrOk_readN 4) (fun sh => ?_)
  refine neverErrOk_dbind (neverErrOk_readN 8) (fun sym => ?_)
  exact neverErrOk_dbind (neverErrOk_readN 4) (fun pr => neverErrOk_dpure _)

theorem neverErrOk_decodeDeleteOrder : NeverErrOk ITCH.decodeDeleteOrder := by
  unfold ITCH.decodeDeleteOrder
  refine neverErrOk_dbind neverErrOk_readByte (fun t => ?_)
  refine neverErrOk_dbind neverErrOk_dguard (fun _ => ?_)
  refine neverErrOk_dbind (neverErrOk_readN 4) (fun ts => ?_)
  exact neverErrOk_dbind (neverErrOk_readN 8) (fun oid => neverErrOk_dpure _)

/-! ## Type dispatchers

Modelled from the spec (section 4.5 and section 6, handler/visitor
interface): peek the type discriminator without committing, select the
matching message codec, decode into a fresh record; on `ok` invoke the
handler entry point for that concrete message type and report the bytes
the message occupied; on an unknown discriminator return `unknown_type`
without advancing; on any other failure return it with zero bytes
consumed and no handler invocation.  The handler exposes one entry point
per message type (as the `struct H` visitors in `src/tools/mdp_dump.cpp`
and `src/tools/pcap_decode/pcap_decode.cpp` do). -/

namespace ITCH

/-- Caller-supplied handler for the feed protocol: one entry point per
message type of interest. -/
structure Handler (α : Type) where
  onAddOrder : AddOrder → α
  onDeleteOrder : DeleteOrder → α

/-- Modelled from the spec: `nasdaq::itch::v5::dispatch_itch`.  Returns the
status, the consumed byte count, and the handler invocation result (if
any). -/
def dispatch_itch {α : Type} (buf : List Nat) (h : Handler α) :
    market.runtime.status × Nat × Option α :=
  match buf.head? with
  | none => (.short_buffer, 0, none)
  | some t =>
    if t = tagAddOrder then
      match decodeAddOrder buf with
      | .ok (r, rest) => (.ok, buf.length - rest.length, some (h.onAddOrder r))
      | .error e => (e, 0, none)
    else if t = tagDeleteOrder then
      match decodeDeleteOrder buf with
      | .ok (r, rest) => (.ok, buf.length - rest.length, some (h.onDeleteOrder r))
      | .error e => (e, 0, none)
    else (.unknown_type, 0, none)

end ITCH

namespace BOE

/-- Caller-supplied handler for the order-entry protocol. -/
structure Handler (α : Type) where
  onLoginRequest : LoginRequest → α
  onNewOrderCross : NewOrderCross → α

/-- Modelled from the spec: `cboe::boe::v3::dispatch_boe`.  The type
discriminator sits after the four preamble bytes, so peeking it needs
five bytes. -/
def dispatch_boe {α : Type} (buf : List Nat) (h : Handler α) :
    market.runtime.status × Nat × Option α :=
  match buf[4]? with
  | none => (.short_buffer, 0, none)
  | some t =>
    if t = msgTypeLoginRequest then
      match decodeLoginRequest buf with
      | .ok (r, rest) => (.ok, buf.length - rest.length, some (h.onLoginRequest r))
      | .error e => (e, 0, none)
    else if t = msgTypeNewOrderCross then
      match decodeNewOrderCross buf with
      | .ok (r, rest) => (.ok, buf.length - rest.length, some (h.onNewOrderCross r))
      | .error e => (e, 0, none)
    else (.unknown_type, 0, none)

end BOE


theorem dispatch_itch_cases {α : Type} (h : ITCH.Handler α) (buf : List Nat) :
    ((ITCH.dispatch_itch buf h).1 = .ok →
      ∃ rest, ((∃ a, ITCH.decodeAddOrder buf = .ok (a, rest) ∧
          (ITCH.dispatch_itch buf h).2.2 = some (h.onAddOrder a)) ∨
        (∃ d, ITCH.decodeDeleteOrder buf = .ok (d, rest) ∧
          (ITCH.dispatch_itch buf h).2.2 = some (h.onDeleteOrder d))) ∧
        (ITCH.dispatch_itch buf h).2.1 = buf.length - rest.length) ∧
    ((ITCH.dispatch_itch buf h).1 ≠ .ok →
      (ITCH.dispatch_itch buf h).2.1 = 0 ∧
      (ITCH.dispatch_itch buf h).2.2 = none) ∧
    (∀ t ts, buf = t :: ts → t ≠ ITCH.tagAddOrder → t ≠ ITCH.tagDeleteOrder →
      ITCH.dispatch_itch buf h = (.unknown_type, 0, none)) := by
  cases buf with
  | nil =>
    have hdisp : ITCH.dispatch_itch [] h = (.short_buffer, 0, none) := rfl
    refine ⟨?_, ?_, ?_⟩
    · intro hok
      rw [hdisp] at hok
      cases hok
    · intro _
      rw [hdisp]
      exact ⟨rfl, rfl⟩
    · intro t ts heq
      cases heq
  | cons t ts =>
    by_cases h1 : t = ITCH.tagAddOrder
    · subst h1
      cases hdec : ITCH.decodeAddOrder (ITCH.tagAddOrder :: ts) with
      | ok p =>
        obtain ⟨a, rest⟩ := p
        have hdisp : ITCH.dispatch_itch (ITCH.tagAddOrder :: ts) h =
            (.ok, (ITCH.tagAddOrder :: ts).length - rest.length,
              some (h.onAddOrder a)) := by
          simp only [ITCH.dispatch_itch, List.head?_cons]
          rw [if_pos trivial, hdec]
        refine ⟨?_, ?_, ?_⟩
        · intro _
          exact ⟨rest, Or.inl ⟨a, rfl, by rw [hdisp]⟩, by rw [hdisp]⟩
        · intro hne
          exact absurd (by rw [hdisp]) hne
        · intro t' ts' heq hta _
          rw [List.cons.injEq] at heq
          exact absurd heq.1.symm hta
      | error e =>
        have hne : e ≠ .ok := neverErrOk_decodeAddOrder _ e hdec
        have hdisp : ITCH.dispatch_itch (ITCH.tagAddOrder :: ts) h =
            (e, 0, none) := by
          simp only [ITCH.dispatch_itch, List.head?_cons]
          rw [if_pos trivial, hdec]
        refine ⟨?_, ?_, ?_⟩
        · intro hok
          rw [hdisp] at hok
          exact absurd hok hne
        · intro _
          rw [hdisp]
          exact ⟨rfl, rfl⟩
        · intro t' ts' heq hta _
          rw [List.cons.injEq] at heq
          exact absurd heq.1.symm hta
    · by_cases h2 : t = ITCH.tagDeleteOrder
      · subst h2
        cases hdec : ITCH.decodeDeleteOrder (ITCH.tagDeleteOrder :: ts) with
        | ok p =>
          obtain ⟨d, rest⟩ := p
          have hdisp : ITCH.dispatch_itch (ITCH.tagDeleteOrder :: ts) h =
              (.ok, (ITCH.tagDeleteOrder :: ts).length - rest.length,
                some (h.onDeleteOrder d)) := by
            simp only [ITCH.dispatch_itch, List.head?_cons]
            rw [if_neg h1, if_pos trivial, hdec]
          refine ⟨?_, ?_, ?_⟩
          · intro _
            exact ⟨rest, Or.inr ⟨d, rfl, by rw [hdisp]⟩, by rw [hdisp]⟩
          · intro hne
            exact absurd (by rw [hdisp]) hne
          · intro t' ts' heq _ htd
            rw [List.cons.injEq] at heq
            exact absurd heq.1.symm htd
        | error e =>
          have hne : e ≠ .ok := neverErrOk_decodeDeleteOrder _ e hdec
          have hdisp : ITCH.dispatch_itch (ITCH.tagDeleteOrder :: ts) h =
              (e, 0, none) := by
            simp only [ITCH.dispatch_itch, List.head?_cons]
            rw [if_neg h1, if_pos trivial, hdec]
          refine ⟨?_, ?_, ?_⟩
          · intro hok
            rw [hdisp] at hok
            exact absurd hok hne
          · intro _
            rw [hdisp]
            exact ⟨rfl, rfl⟩
          · intro t' ts' heq _ htd
            rw [List.cons.injEq] at heq
            exact absurd heq.1.symm htd
      · have hdisp : ITCH.dispatch_itch (t :: ts) h =
            (.unknown_type, 0, none) := by
          simp only [ITCH.dispatch_itch, List.head?_cons]
          rw [if_neg h1, if_neg h2]
        refine ⟨?_, ?_, ?_⟩
        · intro hok
          rw [hdisp] at hok
          cases hok
        · intro _
          rw [hdisp]
          exact ⟨rfl, rfl⟩
        · intro t' ts' heq _ _
          rw [List.cons.injEq] at heq
          obtain ⟨h1', h2'⟩ := heq
          subst h1'
          subst h2'
          exact hdisp

theorem dispatch_boe_cases {α : Type} (h : BOE.Handler α) (buf : List Nat) :
    ((BOE.dispatch_boe buf h).1 = .ok →
      ∃ rest, ((∃ a, BOE.decodeLoginRequest buf = .ok (a, rest) ∧
          (BOE.dispatch_boe buf h).2.2 = some (h.onLoginRequest a)) ∨
        (∃ d, BOE.decodeNewOrderCross buf = .ok (d, rest) ∧
          (BOE.dispatch_boe buf h).2.2 = some (h.onNewOrderCross d))) ∧
        (BOE.dispatch_boe buf h).2.1 = buf.length - rest.length) ∧
    ((BOE.dispatch_boe buf h).1 ≠ .ok →
      (BOE.dispatch_boe buf h).2.1 = 0 ∧
      (BOE.dispatch_boe buf h).2.2 = none) ∧
    (∀ t, buf[4]? = some t → t ≠ BOE.msgTypeLoginRequest →
      t ≠ BOE.msgTypeNewOrderCross →
      BOE.dispatch_boe buf h = (.unknown_type, 0, none)) := by
  cases hget : buf[4]? with
  | none =>
    have hdisp : BOE.dispatch_boe buf h = (.short_buffer, 0, none) := by
      simp only [BOE.dispatch_boe, hget]
    refine ⟨?_, ?_, ?_⟩
    · intro hok
      rw [hdisp] at hok
      cases hok
    · intro _
      rw [hdisp]
      exact ⟨rfl, rfl⟩
    · intro t hg
      cases hg
  | some t =>
    by_cases h1 : t = BOE.msgTypeLoginRequest
    · subst h1
      cases hdec : BOE.decodeLoginRequest buf with
      | ok p =>
        obtain ⟨a, rest⟩ := p
        have hdisp : BOE.dispatch_boe buf h =
            (.ok, buf.length - rest.length, some (h.onLoginRequest a)) := by
          simp only [BOE.dispatch_boe, hget]
          rw [if_pos trivial, hdec]
        refine ⟨?_, ?_, ?_⟩
        · intro _
          exact ⟨rest, Or.inl ⟨a, rfl, by rw [hdisp]⟩, by rw [hdisp]⟩
        · intro hne
          exact absurd (by rw [hdisp]) hne
        · intro t' hg hta _
          rw [Option.some.injEq] at hg
          exact absurd hg.symm hta
      | error e =>
        have hne : e ≠ .ok := neverErrOk_decodeLoginRequest _ e hdec
        have hdisp : BOE.dispatch_boe buf h = (e, 0, none) := by
          simp only [BOE.dispatch_boe, hget]
          rw [if_pos trivial, hdec]
        refine ⟨?_, ?_, ?_⟩
        · intro hok
          rw [hdisp] at hok
          exact absurd hok hne
        · intro _
          rw [hdisp]
          exact ⟨rfl, rfl⟩
        · intro t' hg hta _
          rw [Option.some.injEq] at hg
          exact absurd hg.symm hta
    · by_cases h2 : t = BOE.msgTypeNewOrderCross
      · subst h2
        cases hdec : BOE.decodeNewOrderCross buf with
        | ok p =>
          obtain ⟨d, rest⟩ := p
          have hdisp : BOE.dispatch_boe buf h =
              (.ok, buf.length - rest.length, some (h.onNewOrderCross d)) := by
            simp only [BOE.dispatch_boe, hget]
            rw [if_neg h1, if_pos trivial, hdec]
          refine ⟨?_, ?_, ?_⟩
          · intro _
            exact ⟨rest, Or.inr ⟨d, rfl, by rw [hdisp]⟩, by rw [hdisp]⟩
          · intro hne
            exact absurd (by rw [hdisp]) hne
          · intro t' hg _ htd
            rw [Option.some.injEq] at hg
            exact absurd hg.symm htd
        | error e =>
          have hne : e ≠ .ok := neverErrOk_decodeNewOrderCross _ e hdec
          have hdisp : BOE.dispatch_boe buf h = (e, 0, none) := by
            simp only [BOE.dispatch_boe, hget]
            rw [if_neg h1, if_pos trivial, hdec]
          refine ⟨?_, ?_, ?_⟩
          · intro hok
            rw [hdisp] at hok
            exact absurd hok hne
          · intro _
            rw [hdisp]
            exact ⟨rfl, rfl⟩
          · intro t' hg _ htd
            rw [Option.some.injEq] at hg
            exact absurd hg.symm htd
      · have hdisp : BOE.dispatch_boe buf h = (.unknown_type, 0, none) := by
          simp only [BOE.dispatch_boe, hget]
          rw [if_neg h1, if_neg h2]
        refine ⟨?_, ?_, ?_⟩
        · intro hok
          rw [hdisp] at hok
          cases hok
        · intro _
          rw [hdisp]
          exact ⟨rfl, rfl⟩
        · intro t' hg _ _
          rw [Option.some.injEq] at hg
          subst hg
          exact hdisp

/-! ## Exact consumption: a decode-accepted buffer is the decoded record's
encoding followed by the unread rest -/

theorem bytes_split {s u v : List Nat} (h : s = u ++ v)
    (hb : ∀ b ∈ s, b < 256) :
    (∀ b ∈ u, b < 256) ∧ (∀ b ∈ v, b < 256) := by
  subst h
  constructor
  · intro b hbm
    exact hb b (List.mem_append.mpr (Or.inl hbm))
  · intro b hbm
    exact hb b (List.mem_append.mpr (Or.inr hbm))

namespace BOE

theorem group_exact {acct : Bool} {s rest : List Nat} {g : NewOrderCrossGroups}
    (hb : ∀ b ∈ s, b < 256)
    (h0 : decodeGroup acct s = .ok (g, rest)) :
    s = encodeGroup acct g ++ rest := by
  unfold decodeGroup at h0
  obtain ⟨side, s1, hSide, h1⟩ := exact_dbind h0
  have hSide' := exact_readByte hSide
  obtain ⟨q, s2, hQ, h2⟩ := exact_dbind h1
  obtain ⟨hs1eq, hq4⟩ := exact_readN hQ
  obtain ⟨cl, s3, hCl, h3⟩ := exact_dbind h2
  obtain ⟨hs2eq, hcl20⟩ := exact_readN hCl
  subst hSide'
  subst hs1eq
  subst hs2eq
  have hside_lt : side < 256 := hb side (List.mem_cons_self _ _)
  have hbtail : ∀ b ∈ q ++ (cl ++ s3), b < 256 := fun b hbm =>
    hb b (List.mem_cons_of_mem _ hbm)
  have hq_lt : ∀ b ∈ q, b < 256 := (bytes_split rfl hbtail).1
  have hq_enc : natBytesLE 4 (natFromBytesLE q) = q := by
    have hq' := natBytesLE_natFromBytesLE q hq_lt
    rwa [hq4] at hq'
  cases acct with
  | true =>
    rw [if_pos rfl] at h3
    obtain ⟨a, s4, hA, h4⟩ := exact_dbind h3
    obtain ⟨hs3eq, ha16⟩ := exact_readN hA
    obtain ⟨hrec, hrest⟩ := exact_dpure h4
    subst hs3eq
    subst hrec
    subst hrest
    simp [encodeGroup, Nat.mod_eq_of_lt hside_lt, hq_enc]
  | false =>
    rw [if_neg (by decide)] at h3
    obtain ⟨hrec, hrest⟩ := exact_dpure h3
    subst hrec
    subst hrest
    simp [encodeGroup, Nat.mod_eq_of_lt hside_lt, hq_enc]

theorem groups_exact {acct : Bool} : ∀ {k : Nat} {s rest : List Nat}
    {gs : List NewOrderCrossGroups}, (∀ b ∈ s, b < 256) →
    decodeGroups acct k s = .ok (gs, rest) →
    s = encodeGroups acct gs ++ rest ∧ gs.length = k := by
  intro k
  induction k with
  | zero =>
    intro s rest gs hb h
    obtain ⟨hgs, hrest⟩ := exact_dpure h
    subst hgs
    subst hrest
    exact ⟨rfl, rfl⟩
  | succ k ih =>
    intro s rest gs hb h
    unfold decodeGroups at h
    obtain ⟨g, s1, hG, h⟩ := exact_dbind h
    have hs1 : s = encodeGroup acct g ++ s1 := group_exact hb hG
    obtain ⟨tl, s2, hTl, h⟩ := exact_dbind h
    have hs1_lt : ∀ b ∈ s1, b < 256 := (bytes_split hs1 hb).2
    obtain ⟨hs2, htl⟩ := ih hs1_lt hTl
    obtain ⟨hgs, hrest⟩ := exact_dpure h
    subst hgs
    subst hrest
    constructor
    · rw [hs1, hs2, encodeGroups, List.append_assoc]
    · simp [htl]

end BOE

namespace BOE

theorem loginRequest_exact {buf rest : List Nat} {r : LoginRequest}
    (hb : ∀ b ∈ buf, b < 256)
    (h0 : decodeLoginRequest buf = .ok (r, rest)) :
    buf = encodeLoginRequest r ++ rest := by
  unfold decodeLoginRequest at h0
  obtain ⟨pre, s1, hPre, h1⟩ := exact_dbind h0
  obtain ⟨hbuf, hpre4⟩ := exact_readN hPre
  obtain ⟨u0, s2, hG1, h2⟩ := exact_dbind h1
  obtain ⟨hpre_eq, hs2⟩ := exact_dguard hG1
  subst hpre_eq
  subst hs2
  obtain ⟨t, s3, hT, h3⟩ := exact_dbind h2
  have hTeq := exact_readByte hT
  subst hTeq
  obtain ⟨u1, s4, hG2, h4⟩ := exact_dbind h3
  obtain ⟨ht_eq, hs4⟩ := exact_dguard hG2
  subst ht_eq
  subst hs4
  obtain ⟨un, s5, hUn, h5⟩ := exact_dbind h4
  obtain ⟨hs3eq, hun4⟩ := exact_readN hUn
  subst hs3eq
  obtain ⟨pw, s6, hPw, h6⟩ := exact_dbind h5
  obtain ⟨hs5eq, hpw20⟩ := exact_readN hPw
  subst hs5eq
  obtain ⟨hrec, hrest⟩ := exact_dpure h6
  subst hrec
  subst hrest
  rw [hbuf]
  simp [encodeLoginRequest, msgTypeLoginRequest]

theorem newOrderCross_exact {buf rest : List Nat} {r : NewOrderCross}
    (hb : ∀ b ∈ buf, b < 256)
    (h0 : decodeNewOrderCross buf = .ok (r, rest)) :
    buf = encodeNewOrderCross r ++ rest := by
  unfold decodeNewOrderCross at h0
  obtain ⟨pre, s1, hPre, h1⟩ := exact_dbind h0
  obtain ⟨hbuf, hpre4⟩ := exact_readN hPre
  obtain ⟨u0, s2, hG1, h2⟩ := exact_dbind h1
  obtain ⟨hpre_eq, hs2⟩ := exact_dguard hG1
  subst hpre_eq
  subst hs2
  obtain ⟨t, s3, hT, h3⟩ := exact_dbind h2
  have hTeq := exact_readByte hT
  subst hTeq
  obtain ⟨u1, s4, hG2, h4⟩ := exact_dbind h3
  obtain ⟨ht_eq, hs4⟩ := exact_dguard hG2
  subst ht_eq
  subst hs4
  obtain ⟨cid, s5, hCid, h5⟩ := exact_dbind h4
  obtain ⟨hs3eq, hcid20⟩ := exact_readN hCid
  subst hs3eq
  obtain ⟨pbB, s6, hPb, h6⟩ := exact_dbind h5
  obtain ⟨hs5eq, hpb2⟩ := exact_readN hPb
  subst hs5eq
  obtain ⟨cnt, s7, hCnt, h7⟩ := exact_dbind h6
  have hCnteq := exact_readByte hCnt
  subst hCnteq
  obtain ⟨gs, s8, hGs, h8⟩ := exact_dbind h7
  obtain ⟨hrec, hrest⟩ := exact_dpure h8
  subst hrec
  subst hrest
  rw [hbuf] at hb
  have hpb_lt : ∀ b ∈ pbB, b < 256 := by
    intro b hbm
    exact hb b (by simp [hbm])
  have hcnt_lt : cnt < 256 := hb cnt (by simp)
  have hs7_lt : ∀ b ∈ s7, b < 256 := by
    intro b hbm
    exact hb b (by simp [hbm])
  obtain ⟨hs7eq, hgslen⟩ := groups_exact hs7_lt hGs
  have hpb_enc : natBytesLE 2 (natFromBytesLE pbB) = pbB := by
    have hpb' := natBytesLE_natFromBytesLE pbB hpb_lt
    rwa [hpb2] at hpb'
  rw [hbuf, hs7eq]
  simp [encodeNewOrderCross, msgTypeNewOrderCross, hpb_enc,
    Nat.mod_eq_of_lt hcnt_lt]

end BOE

namespace ITCH

theorem addOrder_exact {buf rest : List Nat} {r : AddOrder}
    (hb : ∀ b ∈ buf, b < 256)
    (h0 : decodeAddOrder buf = .ok (r, rest)) :
    buf = encodeAddOrder r ++ rest := by
  unfold decodeAddOrder at h0
  obtain ⟨t, s1, hT, h1⟩ := exact_dbind h0
  have hTeq := exact_readByte hT
  obtain ⟨u1, s2, hG, h2⟩ := exact_dbind h1
  obtain ⟨ht_eq, hs2⟩ := exact_dguard hG
  subst ht_eq
  subst hs2
  obtain ⟨ts, s3, hTs, h3⟩ := exact_dbind h2
  obtain ⟨hs1eq, hts4⟩ := exact_readN hTs
  subst hs1eq
  obtain ⟨oid, s4, hOid, h4⟩ := exact_dbind h3
  obtain ⟨hs3eq, hoid8⟩ := exact_readN hOid
  subst hs3eq
  obtain ⟨side, s5, hSide, h5⟩ := exact_dbind h4
  have hSideEq := exact_readByte hSide
  subst hSideEq
  obtain ⟨sh, s6, hSh, h6⟩ := exact_dbind h5
  obtain ⟨hs5eq, hsh4⟩ := exact_readN hSh
  subst hs5eq
  obtain ⟨sym, s7, hSym, h7⟩ := exact_dbind h6
  obtain ⟨hs6eq, hsym8⟩ := exact_readN hSym
  subst hs6eq
  obtain ⟨pr, s8, hPr, h8⟩ := exact_dbind h7
  obtain ⟨hs7eq, hpr4⟩ := exact_readN hPr
  subst hs7eq
  obtain ⟨hrec, hrest⟩ := exact_dpure h8
  subst hrec
  subst hrest
  rw [hTeq] at hb
  have hside_lt : side < 256 := hb side (by simp)
  have hts_lt : ∀ b ∈ ts, b < 256 := fun b hbm => hb b (by simp [hbm])
  have hoid_lt : ∀ b ∈ oid, b < 256 := fun b hbm => hb b (by simp [hbm])
  have hsh_lt : ∀ b ∈ sh, b < 256 := fun b hbm => hb b (by simp [hbm])
  have hpr_lt : ∀ b ∈ pr, b < 256 := fun b hbm => hb b (by simp [hbm])
  have hts_enc : natBytesBE 4 (natFromBytesBE ts) = ts := by
    have h' := natBytesLE_natFromBytesLE ts.reverse
      (fun b hbm => hts_lt b (List.mem_reverse.mp hbm))
    rw [List.length_reverse, hts4] at h'
    simp only [natBytesBE, natFromBytesBE, h', List.reverse_reverse]
  have hoid_enc : natBytesBE 8 (natFromBytesBE oid) = oid := by
    have h' := natBytesLE_natFromBytesLE oid.reverse
      (fun b hbm => hoid_lt b (List.mem_reverse.mp hbm))
    rw [List.length_reverse, hoid8] at h'
    simp only [natBytesBE, natFromBytesBE, h', List.reverse_reverse]
  have hsh_enc : natBytesBE 4 (natFromBytesBE sh) = sh := by
    have h' := natBytesLE_natFromBytesLE sh.reverse
      (fun b hbm => hsh_lt b (List.mem_reverse.mp hbm))
    rw [List.length_reverse, hsh4] at h'
    simp only [natBytesBE, natFromBytesBE, h', List.reverse_reverse]
  have hpr_enc : natBytesBE 4 (natFromBytesBE pr) = pr := by
    have h' := natBytesLE_natFromBytesLE pr.reverse
      (fun b hbm => hpr_lt b (List.mem_reverse.mp hbm))
    rw [List.length_reverse, hpr4] at h'
    simp only [natBytesBE, natFromBytesBE, h', List.reverse_reverse]
  rw [hTeq]
  simp [encodeAddOrder, tagAddOrder, hts_enc, hoid_enc, hsh_enc, hpr_enc,
    Nat.mod_eq_of_lt hside_lt]

theorem deleteOrder_exact {buf rest : List Nat} {r : DeleteOrder}
    (hb : ∀ b ∈ buf, b < 256)
    (h0 : decodeDeleteOrder buf = .ok (r, rest)) :
    buf = encodeDeleteOrder r ++ rest := by
  unfold decodeDeleteOrder at h0
  obtain ⟨t, s1, hT, h1⟩ := exact_dbind h0
  have hTeq := exact_readByte hT
  obtain ⟨u1, s2, hG, h2⟩ := exact_dbind h1
  obtain ⟨ht_eq, hs2⟩ := exact_dguard hG
  subst ht_eq
  subst hs2
  obtain ⟨ts, s3, hTs, h3⟩ := exact_dbind h2
  obtain ⟨hs1eq, hts4⟩ := exact_readN hTs
  subst hs1eq
  obtain ⟨oid, s4, hOid, h4⟩ := exact_dbind h3
  obtain ⟨hs3eq, hoid8⟩ := exact_readN hOid
  subst hs3eq
  obtain ⟨hrec, hrest⟩ := exact_dpure h4
  subst hrec
  subst hrest
  rw [hTeq] at hb
  have hts_lt : ∀ b ∈ ts, b < 256 := fun b hbm => hb b (by simp [hbm])
  have hoid_lt : ∀ b ∈ oid, b < 256 := fun b hbm => hb b (by simp [hbm])
  have hts_enc : natBytesBE 4 (natFromBytesBE ts) = ts := by
    have h' := natBytesLE_natFromBytesLE ts.reverse
      (fun b hbm => hts_lt b (List.mem_reverse.mp hbm))
    rw [List.length_reverse, hts4] at h'
    simp only [natBytesBE, natFromBytesBE, h', List.reverse_reverse]
  have hoid_enc : natBytesBE 8 (natFromBytesBE oid) = oid := by
    have h' := natBytesLE_natFromBytesLE oid.reverse
      (fun b hbm => hoid_lt b (List.mem_reverse.mp hbm))
    rw [List.length_reverse, hoid8] at h'
    simp only [natBytesBE, natFromBytesBE, h', List.reverse_reverse]
  rw [hTeq]
  simp [encodeDeleteOrder, tagDeleteOrder, hts_enc, hoid_enc]

end ITCH

/-! ## Presence-bitmask-gated optional-field section

Modelled from the spec (sections 3, 4.3 step 3, 4.4): after the bitmask,
each optional field's bytes are written only if its bit is set; absent
fields contribute zero bytes (never placeholders) and decode to their
default/zero storage.  `fields` lists each declared optional field's
bytes in bit order starting at bit `i`. -/

/-- Modelled from the spec: bytes of the optional-field section of a
message whose presence bitmask is `mask`, for the declared optional
fields starting at bit `i`. -/
def encodeOptionals (mask : Nat) : Nat → List (List Nat) → List Nat
  | _, [] => []
  | i, f :: fs => (if mask.testBit i then f else []) ++ encodeOptionals mask (i + 1) fs

/-- Modelled from the spec: decode the optional-field section, given the
declared wire widths of the optional fields starting at bit `i`; absent
fields are left at default/zero storage. -/
def decodeOptionals (mask : Nat) : Nat → List Nat → Dec (List (List Nat))
  | _, [] => dpure []
  | i, w :: ws =>
    if mask.testBit i then
      dbind (readN w) (fun f =>
      dbind (decodeOptionals mask (i + 1) ws) (fun fs =>
      dpure (f :: fs)))
    else
      dbind (decodeOptionals mask (i + 1) ws) (fun fs =>
      dpure (List.replicate w 0 :: fs))

/-- Expected decoded storage of the optional-field section: each present
field verbatim, each absent field at its default/zero value. -/
def maskedFields (mask : Nat) : Nat → List (List Nat) → List (List Nat)
  | _, [] => []
  | i, f :: fs =>
    (if mask.testBit i then f else List.replicate f.length 0) ::
      maskedFields mask (i + 1) fs

theorem encodeOptionals_append (mask : Nat) (pre post : List (List Nat)) :
    ∀ i, encodeOptionals mask i (pre ++ post) =
      encodeOptionals mask i pre ++ encodeOptionals mask (i + pre.length) post := by
  induction pre with
  | nil => intro i; simp [encodeOptionals]
  | cons f fs ih =>
    intro i
    simp only [List.cons_append, encodeOptionals, List.length_cons, List.append_eq]
    rw [ih (i + 1), List.append_assoc]
    have harith : i + 1 + fs.length = i + (fs.length + 1) := by omega
    rw [harith]

theorem optionals_dspec (mask : Nat) (fields : List (List Nat)) :
    ∀ i, DSpec (decodeOptionals mask i (fields.map List.length))
      (encodeOptionals mask i fields) (maskedFields mask i fields) := by
  induction fields with
  | nil => intro i; exact dspec_dpure []
  | cons f fs ih =>
    intro i
    by_cases hbit : mask.testBit i
    · have hd : DSpec (decodeOptionals mask i ((f :: fs).map List.length))
          (f ++ (encodeOptionals mask (i + 1) fs ++ []))
          (f :: maskedFields mask (i + 1) fs) := by
        simp only [List.map_cons, decodeOptionals]
        rw [if_pos hbit]
        refine dspec_dbind (dspec_readN rfl) ?_
        refine dspec_dbind (ih (i + 1)) ?_
        exact dspec_dpure _
      simp only [List.append_nil] at hd
      simpa [encodeOptionals, maskedFields, hbit] using hd
    · have hd : DSpec (decodeOptionals mask i ((f :: fs).map List.length))
          (encodeOptionals mask (i + 1) fs ++ [])
          (List.replicate f.length 0 :: maskedFields mask (i + 1) fs) := by
        simp only [List.map_cons, decodeOptionals]
        rw [if_neg hbit]
        refine dspec_dbind (ih (i + 1)) ?_
        exact dspec_dpure _
      simp only [List.append_nil] at hd
      simpa [encodeOptionals, maskedFields, hbit] using hd

theorem getD_maskedFields (mask : Nat) (pre post : List (List Nat)) (f : List Nat) :
    ∀ i, (maskedFields mask i (pre ++ f :: post)).getD pre.length [] =
      if mask.testBit (i + pre.length) then f else List.replicate f.length 0 := by
  induction pre with
  | nil => intro i; simp [maskedFields]
  | cons g gs ih =>
    intro i
    simp only [List.cons_append, maskedFields, List.length_cons,
      List.getD_cons_succ, List.append_eq]
    rw [ih (i + 1)]
    have harith : i + 1 + gs.length = i + (gs.length + 1) := by omega
    rw [harith]

/-! ## Helper corollaries shared by the claim theorems -/

theorem roundtrip_of_dspec {α : Type} {d : Dec α} {u : List Nat} {r : α}
    (h : DSpec d u r) :
    d u = .ok (r, []) ∧
    ∀ r' rest', d u = .ok (r', rest') → r' = r ∧ rest' = [] := by
  have hok := dspec_ok h
  refine ⟨hok, ?_⟩
  intro r' rest' h'
  rw [hok] at h'
  simp only [Except.ok.injEq, Prod.mk.injEq] at h'
  exact ⟨h'.1.symm, h'.2.symm⟩

theorem consumed_of_split {buf rest u : List Nat} (h : buf = u ++ rest) :
    buf.length - rest.length = u.length := by
  subst h
  simp

/-- Sample record: the login message of `src/tests/test_roundtrip.cpp`
(username "ABCD", password "ABCDEFGHIJKLMNOPQRST"). -/
def sampleLoginRequest : BOE.LoginRequest :=
  { MessageType := 0x37,
    Username := [65, 66, 67, 68],
    Password := [65, 66, 67, 68, 69, 70, 71, 72, 73, 74, 75, 76, 77, 78, 79,
      80, 81, 82, 83, 84] }

/-- Sample record: a cross order with presence bit 9 set and two group
elements carrying accounts, as in `src/tests/test_roundtrip.cpp`. -/
def sampleNewOrderCross : BOE.NewOrderCross :=
  { MessageType := 0x41,
    CrossId := List.replicate 20 67,
    PresenceBits := 512,
    GroupCount := 2,
    groups := [
      { Side := 66, AllocQty := 1500, ClOrdId := List.replicate 20 79,
        Account := List.replicate 16 65 },
      { Side := 83, AllocQty := 2500, ClOrdId := List.replicate 20 80,
        Account := List.replicate 16 66 }] }

/-- Sample record: the feed add-order of `src/tests/test_roundtrip.cpp`. -/
def sampleAddOrder : ITCH.AddOrder :=
  { «Type» := 65, Timestamp := 123456, OrderId := 72623859790382856,
    Side := 66, Shares := 1000, Symbol := [65, 66, 67, 68, 69, 70, 32, 32],
    Price := 123450 }

/-- Sample record: the feed delete-order of `src/tests/test_roundtrip.cpp`. -/
def sampleDeleteOrder : ITCH.DeleteOrder :=
  { «Type» := 68, Timestamp := 654321, OrderId := 650777868590383874 }

/-- C1: for every well-formed record of any supported message type
(including the presence-bitmask-gated, repeating-group `NewOrderCross`),
decoding the bytes produced by encode yields the record back with the
whole buffer consumed, and any decode of those bytes returns exactly that
record, so re-encoding it reproduces the same byte sequence. -/
theorem claim_C1_roundtrip :
    (∀ r : BOE.LoginRequest, BOE.ValidLoginRequest r →
      BOE.decodeLoginRequest (BOE.encodeLoginRequest r) = .ok (r, []) ∧
      ∀ r' rest', BOE.decodeLoginRequest (BOE.encodeLoginRequest r) = .ok (r', rest') →
        r' = r ∧ rest' = []) ∧
    (∀ r : BOE.NewOrderCross, BOE.ValidNewOrderCross r →
      BOE.decodeNewOrderCross (BOE.encodeNewOrderCross r) = .ok (r, []) ∧
      ∀ r' rest', BOE.decodeNewOrderCross (BOE.encodeNewOrderCross r) = .ok (r', rest') →
        r' = r ∧ rest' = []) ∧
    (∀ r : ITCH.AddOrder, ITCH.ValidAddOrder r →
      ITCH.decodeAddOrder (ITCH.encodeAddOrder r) = .ok (r, []) ∧
      ∀ r' rest', ITCH.decodeAddOrder (ITCH.encodeAddOrder r) = .ok (r', rest') →
        r' = r ∧ rest' = []) ∧
    (∀ r : ITCH.DeleteOrder, ITCH.ValidDeleteOrder r →
      ITCH.decodeDeleteOrder (ITCH.encodeDeleteOrder r) = .ok (r, []) ∧
      ∀ r' rest', ITCH.decodeDeleteOrder (ITCH.encodeDeleteOrder r) = .ok (r', rest') →
        r' = r ∧ rest' = []) := by
  refine ⟨?_, ?_, ?_, ?_⟩
  · intro r hv
    exact roundtrip_of_dspec (BOE.loginRequest_dspec r hv)
  · intro r hv
    exact roundtrip_of_dspec (BOE.newOrderCross_dspec r hv)
  · intro r hv
    exact roundtrip_of_dspec (ITCH.addOrder_dspec r hv)
  · intro r hv
    exact roundtrip_of_dspec (ITCH.deleteOrder_dspec r hv)

/-- C1 witness: the concrete test records round-trip. -/
theorem claim_C1_roundtrip_witness :
    BOE.decodeLoginRequest (BOE.encodeLoginRequest sampleLoginRequest) =
      .ok (sampleLoginRequest, []) ∧
    BOE.decodeNewOrderCross (BOE.encodeNewOrderCross sampleNewOrderCross) =
      .ok (sampleNewOrderCross, []) ∧
    ITCH.decodeAddOrder (ITCH.encodeAddOrder sampleAddOrder) =
      .ok (sampleAddOrder, []) ∧
    ITCH.decodeDeleteOrder (ITCH.encodeDeleteOrder sampleDeleteOrder) =
      .ok (sampleDeleteOrder, []) :=
  ⟨(claim_C1_roundtrip.1 sampleLoginRequest (by decide)).1,
   (claim_C1_roundtrip.2.1 sampleNewOrderCross (by decide)).1,
   (claim_C1_roundtrip.2.2.1 sampleAddOrder (by decide)).1,
   (claim_C1_roundtrip.2.2.2 sampleDeleteOrder (by decide)).1⟩

/-- C2: truncating the encoding of any well-formed message of any
supported type to any strictly shorter length (0 up to L-1) makes decode
return `short_buffer` — never `ok`, so never an `ok` with a wrong
consumed count. -/
theorem claim_C2_truncation :
    (∀ r : BOE.LoginRequest, BOE.ValidLoginRequest r →
      ∀ n, n < (BOE.encodeLoginRequest r).length →
      BOE.decodeLoginRequest ((BOE.encodeLoginRequest r).take n) =
        .error .short_buffer) ∧
    (∀ r : BOE.NewOrderCross, BOE.ValidNewOrderCross r →
      ∀ n, n < (BOE.encodeNewOrderCross r).length →
      BOE.decodeNewOrderCross ((BOE.encodeNewOrderCross r).take n) =
        .error .short_buffer) ∧
    (∀ r : ITCH.AddOrder, ITCH.ValidAddOrder r →
      ∀ n, n < (ITCH.encodeAddOrder r).length →
      ITCH.decodeAddOrder ((ITCH.encodeAddOrder r).take n) =
        .error .short_buffer) ∧
    (∀ r : ITCH.DeleteOrder, ITCH.ValidDeleteOrder r →
      ∀ n, n < (ITCH.encodeDeleteOrder r).length →
      ITCH.decodeDeleteOrder ((ITCH.encodeDeleteOrder r).take n) =
        .error .short_buffer) := by
  refine ⟨?_, ?_, ?_, ?_⟩
  · intro r hv n hn
    exact (BOE.loginRequest_dspec r hv).2 n hn
  · intro r hv n hn
    exact (BOE.newOrderCross_dspec r hv).2 n hn
  · intro r hv n hn
    exact (ITCH.addOrder_dspec r hv).2 n hn
  · intro r hv n hn
    exact (ITCH.deleteOrder_dspec r hv).2 n hn

/-- C2 witness: concrete truncations fail with `short_buffer`. -/
theorem claim_C2_truncation_witness :
    BOE.decodeLoginRequest ((BOE.encodeLoginRequest sampleLoginRequest).take 12) =
      .error .short_buffer ∧
    BOE.decodeNewOrderCross ((BOE.encodeNewOrderCross sampleNewOrderCross).take 60) =
      .error .short_buffer ∧
    ITCH.decodeAddOrder ((ITCH.encodeAddOrder sampleAddOrder).take 29) =
      .error .short_buffer ∧
    ITCH.decodeDeleteOrder ((ITCH.encodeDeleteOrder sampleDeleteOrder).take 0) =
      .error .short_buffer :=
  ⟨claim_C2_truncation.1 sampleLoginRequest (by decide) 12 (by decide),
   claim_C2_truncation.2.1 sampleNewOrderCross (by decide) 60 (by decide),
   claim_C2_truncation.2.2.1 sampleAddOrder (by decide) 29 (by decide),
   claim_C2_truncation.2.2.2 sampleDeleteOrder (by decide) 0 (by decide)⟩

/-- C3: whenever decode returns `ok`, the consumed byte count
(`buf.length - rest.length` in this embedding) equals the exact wire
length of the decoded message — the accepted buffer is precisely that
message's encoding followed by the unread rest; and for a buffer holding
exactly one valid message, decode returns `ok` having consumed the whole
buffer. -/
theorem claim_C3_consumed :
    (∀ buf rest (r : BOE.LoginRequest), (∀ b ∈ buf, b < 256) →
      BOE.decodeLoginRequest buf = .ok (r, rest) →
      buf = BOE.encodeLoginRequest r ++ rest ∧
      buf.length - rest.length = (BOE.encodeLoginRequest r).length) ∧
    (∀ buf rest (r : BOE.NewOrderCross), (∀ b ∈ buf, b < 256) →
      BOE.decodeNewOrderCross buf = .ok (r, rest) →
      buf = BOE.encodeNewOrderCross r ++ rest ∧
      buf.length - rest.length = (BOE.encodeNewOrderCross r).length) ∧
    (∀ buf rest (r : ITCH.AddOrder), (∀ b ∈ buf, b < 256) →
      ITCH.decodeAddOrder buf = .ok (r, rest) →
      buf = ITCH.encodeAddOrder r ++ rest ∧
      buf.length - rest.length = (ITCH.encodeAddOrder r).length) ∧
    (∀ buf rest (r : ITCH.DeleteOrder), (∀ b ∈ buf, b < 256) →
      ITCH.decodeDeleteOrder buf = .ok (r, rest) →
      buf = ITCH.encodeDeleteOrder r ++ rest ∧
      buf.length - rest.length = (ITCH.encodeDeleteOrder r).length) ∧
    (∀ r : BOE.LoginRequest, BOE.ValidLoginRequest r →
      BOE.decodeLoginRequest (BOE.encodeLoginRequest r) = .ok (r, [])) ∧
    (∀ r : BOE.NewOrderCross, BOE.ValidNewOrderCross r →
      BOE.decodeNewOrderCross (BOE.encodeNewOrderCross r) = .ok (r, [])) ∧
    (∀ r : ITCH.AddOrder, ITCH.ValidAddOrder r →
      ITCH.decodeAddOrder (ITCH.encodeAddOrder r) = .ok (r, [])) ∧
    (∀ r : ITCH.DeleteOrder, ITCH.ValidDeleteOrder r →
      ITCH.decodeDeleteOrder (ITCH.encodeDeleteOrder r) = .ok (r, [])) := by
  refine ⟨?_, ?_, ?_, ?_, ?_, ?_, ?_, ?_⟩
  · intro buf rest r hbytes hdec
    have hsplit := BOE.loginRequest_exact hbytes hdec
    exact ⟨hsplit, consumed_of_split hsplit⟩
  · intro buf rest r hbytes hdec
    have hsplit := BOE.newOrderCross_exact hbytes hdec
    exact ⟨hsplit, consumed_of_split hsplit⟩
  · intro buf rest r hbytes hdec
    have hsplit := ITCH.addOrder_exact hbytes hdec
    exact ⟨hsplit, consumed_of_split hsplit⟩
  · intro buf rest r hbytes hdec
    have hsplit := ITCH.deleteOrder_exact hbytes hdec
    exact ⟨hsplit, consumed_of_split hsplit⟩
  · intro r hv
    exact dspec_ok (BOE.loginRequest_dspec r hv)
  · intro r hv
    exact dspec_ok (BOE.newOrderCross_dspec r hv)
  · intro r hv
    exact dspec_ok (ITCH.addOrder_dspec r hv)
  · intro r hv
    exact dspec_ok (ITCH.deleteOrder_dspec r hv)

/-- C3 witness: a buffer holding one add-order followed by two stray bytes
decodes with consumed equal to the message's 30-byte wire length, and the
single-message buffers consume their whole length. -/
theorem claim_C3_consumed_witness :
    (ITCH.encodeAddOrder sampleAddOrder ++ [9, 9] =
      ITCH.encodeAddOrder sampleAddOrder ++ [9, 9] ∧
     (ITCH.encodeAddOrder sampleAddOrder ++ [9, 9]).length - [9, 9].length =
      (ITCH.encodeAddOrder sampleAddOrder).length) ∧
    ITCH.decodeDeleteOrder (ITCH.encodeDeleteOrder sampleDeleteOrder) =
      .ok (sampleDeleteOrder, []) :=
  ⟨claim_C3_consumed.2.2.1 (ITCH.encodeAddOrder sampleAddOrder ++ [9, 9]) [9, 9]
      sampleAddOrder (by decide) rfl,
   claim_C3_consumed.2.2.2.2.2.2.2 sampleDeleteOrder (by decide)⟩

/-- C4: in the optional-field section, a clear presence bit i makes the
field contribute zero bytes (the encoding does not depend on its content,
no placeholder) and decode leaves slot i at default/zero; a set bit i
places the field's bytes exactly after the encodings of the lower-numbered
present fields (the deterministic offset), and the section round-trips
with present fields verbatim. -/
theorem claim_C4_presence :
    ∀ (mask : Nat) (pre post : List (List Nat)) (f : List Nat),
      (¬ mask.testBit pre.length → ∀ f',
        encodeOptionals mask 0 (pre ++ f :: post) =
          encodeOptionals mask 0 (pre ++ f' :: post)) ∧
      (mask.testBit pre.length →
        encodeOptionals mask 0 (pre ++ f :: post) =
          encodeOptionals mask 0 pre ++ f ++
            encodeOptionals mask (pre.length + 1) post) ∧
      decodeOptionals mask 0 ((pre ++ f :: post).map List.length)
        (encodeOptionals mask 0 (pre ++ f :: post)) =
        .ok (maskedFields mask 0 (pre ++ f :: post), []) ∧
      (maskedFields mask 0 (pre ++ f :: post)).getD pre.length [] =
        (if mask.testBit pre.length then f else List.replicate f.length 0) := by
  intro mask pre post f
  refine ⟨?_, ?_, ?_, ?_⟩
  · intro hbit f'
    rw [encodeOptionals_append mask pre (f :: post) 0,
      encodeOptionals_append mask pre (f' :: post) 0]
    simp only [encodeOptionals, Nat.zero_add]
    rw [if_neg hbit]
    rw [if_neg hbit]
  · intro hbit
    rw [encodeOptionals_append mask pre (f :: post) 0]
    simp only [encodeOptionals, Nat.zero_add]
    rw [if_pos hbit, List.append_assoc]
  · exact dspec_ok (optionals_dspec mask (pre ++ f :: post) 0)
  · have h := getD_maskedFields mask pre post f 0
    rwa [Nat.zero_add] at h

/-- C4 witness: with nine one-byte lower fields and bit 9 set the tenth
field sits right after the present lower fields; with the mask clear the
field contributes no bytes and decodes to zero. -/
theorem claim_C4_presence_witness :
    (encodeOptionals 512 0 (List.replicate 9 [7] ++ [1, 2, 3] :: [[4]]) =
      encodeOptionals 512 0 (List.replicate 9 [7]) ++ [1, 2, 3] ++
        encodeOptionals 512 10 [[4]]) ∧
    (∀ f', encodeOptionals 0 0 (List.replicate 9 [7] ++ [1, 2, 3] :: [[4]]) =
      encodeOptionals 0 0 (List.replicate 9 [7] ++ f' :: [[4]])) ∧
    (maskedFields 0 0 (List.replicate 9 [7] ++ [1, 2, 3] :: [[4]])).getD 9 [] =
      List.replicate 3 0 ∧
    decodeOptionals 512 0 ((List.replicate 9 [7] ++ [1, 2, 3] :: [[4]]).map List.length)
      (encodeOptionals 512 0 (List.replicate 9 [7] ++ [1, 2, 3] :: [[4]])) =
      .ok (maskedFields 512 0 (List.replicate 9 [7] ++ [1, 2, 3] :: [[4]]), []) := by
  refine ⟨?_, ?_, ?_, ?_⟩
  · exact (claim_C4_presence 512 (List.replicate 9 [7]) [[4]] [1, 2, 3]).2.1
      (by decide)
  · exact (claim_C4_presence 0 (List.replicate 9 [7]) [[4]] [1, 2, 3]).1
      (by decide)
  · have h := (claim_C4_presence 0 (List.replicate 9 [7]) [[4]] [1, 2, 3]).2.2.2
    rwa [if_neg (by decide)] at h
  · exact (claim_C4_presence 512 (List.replicate 9 [7]) [[4]] [1, 2, 3]).2.2.1

/-- C5: `store_le` lays the value's bytes down least-significant first and
`store_be` most-significant first whatever the host byte order (byteswap
on mismatched hosts, direct copy on matching hosts), and the loads read
back under the same fixed byte orders: the k-th byte stored by `store_le`
is `v / 256^k % 256`, `store_be` writes the reversed sequence, and both
stores and loads are independent of the host order. -/
theorem claim_C5_endian :
    ∀ (e e' : Endian) (w v : Nat),
      (∀ k, k < w → (store_le e w v).getD k 0 = v / 256 ^ k % 256) ∧
      store_be e w v = (store_le e w v).reverse ∧
      store_le e w v = store_le e' w v ∧
      store_be e w v = store_be e' w v ∧
      (∀ bs, bs.length = w → (∀ b ∈ bs, b < 256) →
        load_le e w bs = natFromBytesLE bs ∧
        load_be e w bs = natFromBytesLE bs.reverse ∧
        load_le e w bs = load_le e' w bs ∧
        load_be e w bs = load_be e' w bs) := by
  intro e e' w v
  refine ⟨?_, ?_, ?_, ?_, ?_⟩
  · intro k hk
    rw [store_le_eq]
    exact getD_natBytesLE w v k hk
  · rw [store_le_eq, store_be_eq]
  · rw [store_le_eq, store_le_eq]
  · rw [store_be_eq, store_be_eq]
  · intro bs hlen hlt
    refine ⟨load_le_eq e w bs hlen hlt, load_be_eq e w bs hlen hlt, ?_, ?_⟩
    · rw [load_le_eq e w bs hlen hlt, load_le_eq e' w bs hlen hlt]
    · rw [load_be_eq e w bs hlen hlt, load_be_eq e' w bs hlen hlt]

/-- C5 witness: storing 0x1234 over two bytes on either host order. -/
theorem claim_C5_endian_witness :
    (store_le Endian.big 2 4660).getD 0 0 = 52 ∧
    store_be Endian.little 2 4660 = (store_le Endian.little 2 4660).reverse ∧
    store_le Endian.little 2 4660 = store_le Endian.big 2 4660 ∧
    load_le Endian.big 2 [52, 18] = natFromBytesLE [52, 18] := by
  refine ⟨?_, ?_, ?_, ?_⟩
  · have h := (claim_C5_endian Endian.big Endian.little 2 4660).1 0 (by decide)
    simpa using h
  · exact (claim_C5_endian Endian.little Endian.big 2 4660).2.1
  · exact (claim_C5_endian Endian.little Endian.big 2 4660).2.2.1
  · exact ((claim_C5_endian Endian.big Endian.little 2 4660).2.2.2.2
      [52, 18] rfl (by decide)).1

/-- C6: a well-formed feed add-order encodes to exactly 30 bytes and a
delete-order to exactly 13 bytes (the length of the produced buffer is
the reported `bytes_written`), and both decode back to the original
record with the whole buffer consumed, hence re-encode byte-exactly. -/
theorem claim_C6_itch_sizes :
    ∀ (a : ITCH.AddOrder) (d : ITCH.DeleteOrder),
      ITCH.ValidAddOrder a → ITCH.ValidDeleteOrder d →
      (ITCH.encodeAddOrder a).length = 30 ∧
      (ITCH.encodeDeleteOrder d).length = 13 ∧
      ITCH.decodeAddOrder (ITCH.encodeAddOrder a) = .ok (a, []) ∧
      ITCH.decodeDeleteOrder (ITCH.encodeDeleteOrder d) = .ok (d, []) := by
  intro a d hva hvd
  refine ⟨?_, ?_, dspec_ok (ITCH.addOrder_dspec a hva),
    dspec_ok (ITCH.deleteOrder_dspec d hvd)⟩
  · obtain ⟨h1, h2, h3, h4, h5, h6, h7⟩ := hva
    simp [ITCH.encodeAddOrder, length_natBytesBE, h6]
  · simp [ITCH.encodeDeleteOrder, length_natBytesBE]

/-- C6 witness: the concrete test messages have the pinned sizes and
round-trip. -/
theorem claim_C6_itch_sizes_witness :
    (ITCH.encodeAddOrder sampleAddOrder).length = 30 ∧
    (ITCH.encodeDeleteOrder sampleDeleteOrder).length = 13 ∧
    ITCH.decodeAddOrder (ITCH.encodeAddOrder sampleAddOrder) =
      .ok (sampleAddOrder, []) ∧
    ITCH.decodeDeleteOrder (ITCH.encodeDeleteOrder sampleDeleteOrder) =
      .ok (sampleDeleteOrder, []) :=
  claim_C6_itch_sizes sampleAddOrder sampleDeleteOrder (by decide) (by decide)

/-- Constant handler used to exercise the feed dispatcher. -/
def constITCHHandler : ITCH.Handler Nat :=
  { onAddOrder := fun _ => 0, onDeleteOrder := fun _ => 1 }

/-- Constant handler used to exercise the order-entry dispatcher. -/
def constBOEHandler : BOE.Handler Nat :=
  { onLoginRequest := fun _ => 0, onNewOrderCross := fun _ => 1 }

/-- C7: for every input buffer each dispatcher either (a) returns `ok`
having decoded one message, invoking exactly the handler entry point of
that message's concrete type with consumed equal to the bytes the message
occupied, or (b) returns `unknown_type` with zero consumed and no
invocation when the peeked discriminator matches no known message, or
(c) returns the decoder's non-`ok` status with zero consumed and no
invocation. -/
theorem claim_C7_dispatcher :
    ∀ (α β : Type) (hi : ITCH.Handler α) (hb : BOE.Handler β) (buf : List Nat),
      (((ITCH.dispatch_itch buf hi).1 = .ok →
        ∃ rest, ((∃ a, ITCH.decodeAddOrder buf = .ok (a, rest) ∧
            (ITCH.dispatch_itch buf hi).2.2 = some (hi.onAddOrder a)) ∨
          (∃ d, ITCH.decodeDeleteOrder buf = .ok (d, rest) ∧
            (ITCH.dispatch_itch buf hi).2.2 = some (hi.onDeleteOrder d))) ∧
          (ITCH.dispatch_itch buf hi).2.1 = buf.length - rest.length) ∧
      ((ITCH.dispatch_itch buf hi).1 ≠ .ok →
        (ITCH.dispatch_itch buf hi).2.1 = 0 ∧
        (ITCH.dispatch_itch buf hi).2.2 = none) ∧
      (∀ t ts, buf = t :: ts → t ≠ ITCH.tagAddOrder → t ≠ ITCH.tagDeleteOrder →
        ITCH.dispatch_itch buf hi = (.unknown_type, 0, none))) ∧
      (((BOE.dispatch_boe buf hb).1 = .ok →
        ∃ rest, ((∃ a, BOE.decodeLoginRequest buf = .ok (a, rest) ∧
            (BOE.dispatch_boe buf hb).2.2 = some (hb.onLoginRequest a)) ∨
          (∃ d, BOE.decodeNewOrderCross buf = .ok (d, rest) ∧
            (BOE.dispatch_boe buf hb).2.2 = some (hb.onNewOrderCross d))) ∧
          (BOE.dispatch_boe buf hb).2.1 = buf.length - rest.length) ∧
      ((BOE.dispatch_boe buf hb).1 ≠ .ok →
        (BOE.dispatch_boe buf hb).2.1 = 0 ∧
        (BOE.dispatch_boe buf hb).2.2 = none) ∧
      (∀ t, buf[4]? = some t → t ≠ BOE.msgTypeLoginRequest →
        t ≠ BOE.msgTypeNewOrderCross →
        BOE.dispatch_boe buf hb = (.unknown_type, 0, none))) := by
  intro α β hi hb buf
  exact ⟨dispatch_itch_cases hi buf, dispatch_boe_cases hb buf⟩

/-- C7 witness: an unknown leading tag makes both dispatchers return
`unknown_type` without consuming bytes or invoking a handler. -/
theorem claim_C7_dispatcher_witness :
    ITCH.dispatch_itch [1, 2, 3] constITCHHandler =
      (.unknown_type, 0, none) ∧
    BOE.dispatch_boe [0, 0, 0, 0, 5] constBOEHandler =
      (.unknown_type, 0, none) :=
  ⟨(claim_C7_dispatcher Nat Nat constITCHHandler constBOEHandler
      [1, 2, 3]).1.2.2 1 [2, 3] rfl (by decide) (by decide),
   (claim_C7_dispatcher Nat Nat constITCHHandler constBOEHandler
      [0, 0, 0, 0, 5]).2.2.2 5 rfl (by decide) (by decide)⟩

/-- C8: every decoder (and the dispatcher) of this embedding is a pure
function of its input buffer: two calls on byte-identical buffers return
identical records, consumed counts and statuses, with no dependence on
prior calls or on other buffers — determinism stated as a two-run
property. -/
theorem claim_C8_determinism :
    ∀ (b1 b2 : List Nat), b1 = b2 →
      BOE.decodeLoginRequest b1 = BOE.decodeLoginRequest b2 ∧
      BOE.decodeNewOrderCross b1 = BOE.decodeNewOrderCross b2 ∧
      ITCH.decodeAddOrder b1 = ITCH.decodeAddOrder b2 ∧
      ITCH.decodeDeleteOrder b1 = ITCH.decodeDeleteOrder b2 ∧
      (∀ (α : Type) (h : ITCH.Handler α),
        ITCH.dispatch_itch b1 h = ITCH.dispatch_itch b2 h) ∧
      (∀ (β : Type) (h : BOE.Handler β),
        BOE.dispatch_boe b1 h = BOE.dispatch_boe b2 h) := by
  intro b1 b2 heq
  subst heq
  exact ⟨rfl, rfl, rfl, rfl, fun _ _ => rfl, fun _ _ => rfl⟩

/-- C8 witness: the two-run property at a concrete buffer. -/
theorem claim_C8_determinism_witness :
    ITCH.decodeAddOrder (ITCH.encodeAddOrder sampleAddOrder) =
      ITCH.decodeAddOrder (ITCH.encodeAddOrder sampleAddOrder) :=
  (claim_C8_determinism (ITCH.encodeAddOrder sampleAddOrder)
    (ITCH.encodeAddOrder sampleAddOrder) rfl).2.2.1

/-- C9: `status_to_string` maps each of the four status codes to its
stable label. -/
theorem claim_C9_status_labels :
    market.runtime.status_to_string .ok = "ok" ∧
    market.runtime.status_to_string .short_buffer = "short_buffer" ∧
    market.runtime.status_to_string .bad_value = "bad_value" ∧
    market.runtime.status_to_string .unknown_type = "unknown_type" :=
  ⟨rfl, rfl, rfl, rfl⟩

/-- C10: storing then loading under the same byte order is the identity
for any in-range 16/32/64-bit value on either host order, and loading the
same bytes under the opposite byte order yields the byteswapped value. -/
theorem claim_C10_endian_roundtrip :
    ∀ (e : Endian) (w v : Nat), v < 256 ^ w →
      load_le e w (store_le e w v) = v ∧
      load_be e w (store_be e w v) = v ∧
      load_be e w (store_le e w v) = byteswap w v ∧
      load_le e w (store_be e w v) = byteswap w v := by
  intro e w v hv
  have hlen : (natBytesLE w v).length = w := length_natBytesLE w v
  have hlt : ∀ b ∈ natBytesLE w v, b < 256 := natBytesLE_lt w v
  have hlen' : (natBytesLE w v).reverse.length = w := by simp [hlen]
  have hlt' : ∀ b ∈ (natBytesLE w v).reverse, b < 256 := by
    intro b hbm
    exact hlt b (List.mem_reverse.mp hbm)
  refine ⟨?_, ?_, ?_, ?_⟩
  · rw [store_le_eq, load_le_eq e w _ hlen hlt, natFromBytesLE_eq_self w v hv]
  · rw [store_be_eq, load_be_eq e w _ hlen' hlt', List.reverse_reverse,
      natFromBytesLE_eq_self w v hv]
  · rw [store_le_eq, load_be_eq e w _ hlen hlt]
    rfl
  · rw [store_be_eq, load_le_eq e w _ hlen' hlt']
    rfl

/-- C10 witness: the 16-bit value 0x1234 round-trips and cross-loads as
its byteswap on a little-endian host. -/
theorem claim_C10_endian_roundtrip_witness :
    load_le Endian.little 2 (store_le Endian.little 2 4660) = 4660 ∧
    load_be Endian.little 2 (store_le Endian.little 2 4660) =
      byteswap 2 4660 :=
  ⟨(claim_C10_endian_roundtrip Endian.little 2 4660 (by decide)).1,
   (claim_C10_endian_roundtrip Endian.little 2 4660 (by decide)).2.2.1⟩
